import Mathlib

/-!
Verification of the content-definition management subsystem of SimpleCMS
(`src/collections/CollectionManager.ts`).

The development shallowly embeds the manager's data model and operations:
JavaScript `Map`s become association lists that preserve `Map` iteration
order (replace-in-place on an existing key, append on a fresh key),
`Date.now()` becomes an explicit logical clock threaded through the state,
`createRandomID()` becomes a draw from a fresh-identifier counter, and the
optional Redis tier becomes an explicit store value passed alongside the
in-memory state.  Fallible operations return `Except`/`Option`.
-/

set_option maxHeartbeats 1000000
set_option maxRecDepth 8000

namespace SimpleCMS

/-! ## Constants (`CollectionManager.ts`, lines 55-60) -/

def CACHE_TTL : Nat := 1000 * 60 * 5

def REDIS_TTL : Nat := 300

def MAX_CACHE_SIZE : Nat := 100

def EXCLUDED_FILES : List String := ["index.ts", "types.ts", "categories.ts", "CollectionManager.ts"]

/-! ## Association-list primitives mirroring JavaScript `Map` semantics

`Map.set` replaces the value in place when the key is present (iteration
order keeps the key at its original position) and appends at the end when
the key is fresh.  `Map.delete` removes the entry.  `Map.get` finds it. -/

def lookupA {α : Type} (l : List (String × α)) (k : String) : Option α :=
  match l with
  | [] => none
  | (k₀, v₀) :: rest => if k₀ = k then some v₀ else lookupA rest k

def setA {α : Type} (l : List (String × α)) (k : String) (v : α) : List (String × α) :=
  match l with
  | [] => [(k, v)]
  | (k₀, v₀) :: rest => if k₀ = k then (k, v) :: rest else (k₀, v₀) :: setA rest k v

def deleteA {α : Type} (l : List (String × α)) (k : String) : List (String × α) :=
  match l with
  | [] => []
  | (k₀, v₀) :: rest => if k₀ = k then rest else (k₀, v₀) :: deleteA rest k

def keysA {α : Type} (l : List (String × α)) : List String := l.map Prod.fst

@[simp] theorem lookupA_nil {α : Type} (k : String) : lookupA ([] : List (String × α)) k = none := rfl

@[simp] theorem lookupA_cons {α : Type} (k₀ k : String) (v₀ : α) (rest : List (String × α)) :
    lookupA ((k₀, v₀) :: rest) k = if k₀ = k then some v₀ else lookupA rest k := rfl

theorem lookupA_setA_self {α : Type} (l : List (String × α)) (k : String) (v : α) :
    lookupA (setA l k v) k = some v := by
  induction l with
  | nil => simp [setA]
  | cons p rest ih =>
    obtain ⟨k₀, v₀⟩ := p
    by_cases h : k₀ = k <;> simp [setA, h, ih]

theorem lookupA_setA_other {α : Type} (l : List (String × α)) (k j : String) (v : α)
    (hne : j ≠ k) : lookupA (setA l k v) j = lookupA l j := by
  induction l with
  | nil => simp [setA, lookupA, Ne.symm hne]
  | cons p rest ih =>
    obtain ⟨k₀, v₀⟩ := p
    by_cases h : k₀ = k
    · subst h
      simp [setA, lookupA, Ne.symm hne]
    · simp only [setA, if_neg h, lookupA_cons]
      by_cases h₂ : k₀ = j <;> simp [h₂, ih]

theorem lookupA_eq_none_of_not_mem {α : Type} (l : List (String × α)) (k : String)
    (h : k ∉ keysA l) : lookupA l k = none := by
  induction l with
  | nil => rfl
  | cons p rest ih =>
    obtain ⟨k₀, v₀⟩ := p
    simp only [keysA, List.map_cons, List.mem_cons, not_or] at h
    simp only [lookupA_cons, if_neg (Ne.symm h.1)]
    exact ih h.2

theorem lookupA_deleteA_self {α : Type} (l : List (String × α)) (k : String)
    (hnd : (keysA l).Nodup) : lookupA (deleteA l k) k = none := by
  induction l with
  | nil => simp [deleteA]
  | cons p rest ih =>
    obtain ⟨k₀, v₀⟩ := p
    simp only [keysA, List.map_cons, List.nodup_cons] at hnd
    by_cases h : k₀ = k
    · subst h
      simp only [deleteA, if_pos rfl]
      exact lookupA_eq_none_of_not_mem rest k₀ hnd.1
    · simp only [deleteA, if_neg h, lookupA_cons, if_neg h]
      exact ih hnd.2

theorem lookupA_deleteA_other {α : Type} (l : List (String × α)) (k j : String)
    (hne : j ≠ k) : lookupA (deleteA l k) j = lookupA l j := by
  induction l with
  | nil => simp [deleteA]
  | cons p rest ih =>
    obtain ⟨k₀, v₀⟩ := p
    by_cases h : k₀ = k
    · subst h
      simp [deleteA, lookupA, Ne.symm hne]
    · simp only [deleteA, if_neg h, lookupA_cons]
      by_cases h₂ : k₀ = j <;> simp [h₂, ih]

/-! ## Schema data model

`Schema` is the normalized in-memory definition produced by the manager.
`SchemaSrc` is the raw `schema` export of a definition source before
normalization; `none` in an optional field models a missing (or falsy)
attribute, matching the `||`-defaulting in the source.  Field entries and
permission maps are opaque payloads here. -/

structure SchemaSrc where
  id : Option String
  icon : Option String
  label : Option String
  slug : Option String
  description : Option String
  strict : Option Bool
  revision : Option Bool
  livePreview : Option Bool
  fields : Option (List String)
  permissions : Option (List (String × String))
  deriving Repr, DecidableEq

structure Schema where
  id : String
  name : String
  label : String
  slug : String
  icon : String
  description : String
  strict : Bool
  revision : Bool
  path : String
  permissions : List (String × String)
  livePreview : Bool
  fields : List String
  deriving Repr, DecidableEq

/-- A definition-source module after evaluation (`processModule` result):
`none` models a module that failed to evaluate or exports no `schema`. -/
abbrev Module := Option SchemaSrc

/-! ## Cache entries and the local tier (lines 49-57, 175-233) -/

structure CacheEntry (V : Type) where
  value : V
  timestamp : Nat
  deriving Repr, DecidableEq

abbrev Cache (V : Type) := List (String × CacheEntry V)

/-- Stable insertion step for ascending sort by timestamp. -/
def insertByTs {V : Type} (p : String × CacheEntry V) : Cache V → Cache V
  | [] => [p]
  | q :: rest =>
    if p.2.timestamp ≤ q.2.timestamp then p :: q :: rest else q :: insertByTs p rest

/-- Stable ascending sort by insertion timestamp, modelling
`Array.from(cache.entries()).sort((a, b) => a[1].timestamp - b[1].timestamp)`. -/
def sortByTs {V : Type} : Cache V → Cache V
  | [] => []
  | p :: rest => insertByTs p (sortByTs rest)

/-- `trimCache` (lines 226-233): when the size bound is exceeded, the
oldest-by-timestamp surplus keys are deleted; surviving entries keep their
original `Map` iteration order. -/
def trimCache {V : Type} (c : Cache V) : Cache V :=
  if c.length > MAX_CACHE_SIZE then
    let toRemove := keysA ((sortByTs c).take (c.length - MAX_CACHE_SIZE))
    c.filter (fun p => !(toRemove.contains p.1))
  else c

/-! ## The distributed tier (Redis collaborator)

Values stored under the manager's Redis keys are schemas (per-file keys),
the full definition list (`cms:all_collections`) or the category array
(`cms:categories`).  Expiry of distributed entries is the external Redis
server's behaviour and is outside this model; `REDIS_TTL` is passed along
and recorded nowhere, as the claims under study never rely on it. -/

inductive RedisVal (C : Type) where
  | schema (s : Schema)
  | schemaList (l : List Schema)
  | categoryList (l : List C)
  deriving Repr, DecidableEq

abbrev Redis (C : Type) := List (String × RedisVal C)

def projSchema {C : Type} : Option (RedisVal C) → Option Schema
  | some (RedisVal.schema s) => some s
  | _ => none

def projSchemaList {C : Type} : Option (RedisVal C) → Option (List Schema)
  | some (RedisVal.schemaList l) => some l
  | _ => none

def projCategoryList {C : Type} : Option (RedisVal C) → Option (List C)
  | some (RedisVal.categoryList l) => some l
  | _ => none

/-! ## Tiered read and write (`getCacheValue` / `setCacheValue`, lines 175-212)

The read consults Redis first when available; on a hit it rewrites the
local entry with a fresh timestamp and returns.  Otherwise it falls back
to the local map, honouring `CACHE_TTL` (an expired entry is deleted and
reported absent).  The write is write-through: Redis when available, then
the local map, then `trimCache`. -/

def getCacheValue {V C : Type} (browser redisOn : Bool) (redis : Redis C)
    (proj : Option (RedisVal C) → Option V) (now : Nat) (k : String) (c : Cache V) :
    Option V × Cache V :=
  match (if !browser && redisOn then proj (lookupA redis ("cms:" ++ k)) else none) with
  | some v => (some v, setA c k ⟨v, now⟩)
  | none =>
    match lookupA c k with
    | none => (none, c)
    | some e =>
      if now - e.timestamp > CACHE_TTL then (none, deleteA c k) else (some e.value, c)

def setCacheValue {V C : Type} (browser redisOn : Bool) (redis : Redis C)
    (inj : V → RedisVal C) (now : Nat) (k : String) (v : V) (c : Cache V) :
    Cache V × Redis C :=
  let redis₁ := if !browser && redisOn then setA redis ("cms:" ++ k) (inj v) else redis
  (trimCache (setA c k ⟨v, now⟩), redis₁)

/-! ## Path helpers (lines 341-344, 372-375, 526-539) -/

/-- Character-level suffix test and right-drop (the byte-indexed `String`
primitives do not matter here; strings are their character lists). -/
def strEndsWith (s suffix : String) : Bool :=
  List.isSuffixOf suffix.data s.data

def strDropRight (s : String) (n : Nat) : String :=
  String.mk (s.data.take (s.data.length - n))

/-- `toLowerCase()` on the character list. -/
def strToLower (s : String) : String :=
  String.mk (s.data.map Char.toLower)

/-- `.replace(/\.(ts|js)$/, "")`. -/
def stripExt (s : String) : String :=
  if strEndsWith s ".ts" then strDropRight s 3
  else if strEndsWith s ".js" then strDropRight s 3
  else s

/-- Character-level split, modelling `String.prototype.split(sep)` for a
one-character separator: `"a/b" ↦ ["a", "b"]`, `"" ↦ [""]`,
`"a//b" ↦ ["a", "", "b"]`.  The result is never the empty list, as in
JavaScript. -/
def splitChars (sep : Char) : List Char → List (List Char)
  | [] => [[]]
  | c :: rest =>
    match splitChars sep rest with
    | [] => [[]]
    | seg :: segs => if c = sep then [] :: seg :: segs else (c :: seg) :: segs

def splitSlash (s : String) : List String :=
  (splitChars (Char.ofNat 47) s.data).map (fun l => String.mk l)

theorem splitChars_ne_nil (sep : Char) : ∀ l : List Char, splitChars sep l ≠ []
  | [] => by simp [splitChars]
  | c :: rest => by
    simp only [splitChars]
    cases splitChars sep rest with
    | nil => simp
    | cons seg segs =>
      by_cases h : c = sep <;> simp [h]

theorem splitSlash_ne_nil (s : String) : splitSlash s ≠ [] := by
  unfold splitSlash
  simp only [ne_eq, List.map_eq_nil_iff]
  exact splitChars_ne_nil _ _

/-- `filePath.split("/").pop()`: the final path segment (`split` never
returns an empty array in JavaScript). -/
def lastSegment (filePath : String) : String :=
  (splitSlash filePath).getLastD ""

def mapLast (f : String → String) : List String → List String
  | [] => []
  | [x] => [f x]
  | x :: y :: rest => x :: mapLast f (y :: rest)

/-- `extractPathFromFilePath` (lines 526-539): everything after the
`collections` segment, extension stripped from the last segment.  (The
comparison with the literal `"config/collections"` can never match a
single split segment, exactly as in the source.) -/
def extractPathFromFilePath (filePath : String) : String :=
  let parts := splitSlash filePath
  match parts.findIdx? (fun part => part = "collections" || part = "config/collections") with
  | none => ""
  | some i => String.intercalate "/" (mapLast stripExt (parts.drop (i + 1)))

/-! ## Dev-mode schema normalization (lines 353-398)

`id: schema.id || createRandomID()` draws a fresh identifier only when the
source does not carry one; the fresh-identifier counter models the stream
of `createRandomID()` results (each draw distinct). -/

def mkDevSchema (filePath name : String) (src : SchemaSrc) (idVal : String) : Schema :=
  { id := idVal
    name := name
    icon := src.icon.getD "iconoir:info-empty"
    path := extractPathFromFilePath filePath
    fields := src.fields.getD []
    permissions := src.permissions.getD []
    livePreview := src.livePreview.getD false
    strict := src.strict.getD false
    revision := src.revision.getD false
    description := src.description.getD ""
    label := src.label.getD name
    slug := src.slug.getD (strToLower name) }

/-- One iteration of the dev-mode `for` loop body: `none` is a skipped
(logged) source, `some` a successfully processed definition.  The returned
counter reflects the `createRandomID()` draws consumed. -/
def devProcessOne (filePath : String) (m : Module) (idCtr : Nat) : Option Schema × Nat :=
  match m with
  | none => (none, idCtr)
  | some src =>
    let name := stripExt (lastSegment filePath)
    if name = "" then (none, idCtr)
    else
      match src.id with
      | some i => (some (mkDevSchema filePath name src i), idCtr)
      | none => (some (mkDevSchema filePath name src (toString idCtr)), idCtr + 1)

/-- Whether a dev-mode source compiles (pure view of `devProcessOne`). -/
def devCompiles (filePath : String) (m : Module) : Bool :=
  match m with
  | none => false
  | some _ => !(stripExt (lastSegment filePath) = "")

/-- `processCollectionFile` (lines 450-523), production/lazy path: returns
`none` (logged) for an invalid module or unusable name, otherwise the
normalized schema with `path := filePath`.  Line 475 draws a `randomId`
that the function never uses; the draw is reproduced faithfully.  Widget
placeholder resolution concerns the external widget registry and has no
representation on opaque field payloads. -/
def processCollectionFile (filePath : String) (content : Module) (idCtr : Nat) :
    Option Schema × Nat :=
  match content with
  | none => (none, idCtr)
  | some src =>
    let name := stripExt (lastSegment filePath)
    if name = "" then (none, idCtr)
    else
      let ctr₁ := idCtr + 1
      let (idVal, ctr₂) :=
        match src.id with
        | some i => (i, ctr₁)
        | none => (toString ctr₁, ctr₁ + 1)
      (some { id := idVal
              name := name
              label := src.label.getD name
              slug := src.slug.getD (strToLower name)
              icon := src.icon.getD "iconoir:info-empty"
              description := src.description.getD ""
              strict := src.strict.getD false
              revision := src.revision.getD false
              path := filePath
              permissions := src.permissions.getD []
              livePreview := src.livePreview.getD false
              fields := src.fields.getD [] }, ctr₂)

/-! ## Category tree (`createCategories`, lines 646-748)

`Record<string, CategoryData>` becomes `CatForest`, an entry list that
keeps JavaScript object property-insertion order (fresh keys append, and
updates keep the key at its position).  The node creation at lines 681-687
stores no `order`, exactly as in the source; ids come from the fresh
counter modelling `createRandomID().toString()` with `parseInt` recovering
the number. -/

mutual
inductive CategoryData where
  | mk (id : Nat) (name : String) (icon : String) (subcategories : CatForest)
       (collections : List Schema) (isCollection : Bool)
inductive CatForest where
  | nil
  | cons (key : String) (node : CategoryData) (rest : CatForest)
end

def CategoryData.id : CategoryData → Nat
  | .mk i _ _ _ _ _ => i

def CategoryData.name : CategoryData → String
  | .mk _ n _ _ _ _ => n

def CategoryData.icon : CategoryData → String
  | .mk _ _ ic _ _ _ => ic

def CategoryData.subcategories : CategoryData → CatForest
  | .mk _ _ _ s _ _ => s

def CategoryData.collections : CategoryData → List Schema
  | .mk _ _ _ _ c _ => c

def CategoryData.isCollection : CategoryData → Bool
  | .mk _ _ _ _ _ b => b

def CategoryData.withSubcategories : CategoryData → CatForest → CategoryData
  | .mk i n ic _ c b, s => .mk i n ic s c b

def lookupF : CatForest → String → Option CategoryData
  | .nil, _ => none
  | .cons k₀ n rest, k => if k₀ = k then some n else lookupF rest k

def setF : CatForest → String → CategoryData → CatForest
  | .nil, k, n => .cons k n .nil
  | .cons k₀ n₀ rest, k, n =>
    if k₀ = k then .cons k n rest else .cons k₀ n₀ (setF rest k n)

/-- `categoryConfig[currentPath] || { icon: index === 0 ? "bi:collection" :
"bi:folder", order: 999 }` — only the icon of the configured pair is ever
read by the node constructor.  The `categoryConfig` map itself lives in the
generated `categories.ts` and is a parameter here. -/
def cfgIcon (cfg : List (String × String)) (currentPath : String) (index : Nat) : String :=
  match lookupA cfg currentPath with
  | some ic => ic
  | none => if index = 0 then "bi:collection" else "bi:folder"

/-- Lines 690-698: attach the definition at the path-terminal node, let its
icon override the node icon when set (`collection.icon || current`), and
flag the node as a collection leaf. -/
def attachCollection (c : Schema) (n : CategoryData) : CategoryData :=
  CategoryData.mk n.id n.name (if c.icon = "" then n.icon else c.icon)
    n.subcategories (n.collections ++ [c]) true

/-- `currentPath = currentPath ? currentPath + "/" + part : part`. -/
def childPath (parentPath part : String) : String :=
  if parentPath = "" then part else parentPath ++ "/" ++ part

/-- The node created at lines 681-687 for a path prefix not yet present. -/
def newNodeAt (cfg : List (String × String)) (currentPath : String) (index ctr : Nat)
    (part : String) : CategoryData :=
  CategoryData.mk ctr part (cfgIcon cfg currentPath index) .nil [] false

/-- The `for (const [index, part] of pathParts.entries())` walk of lines
671-701: create missing nodes along the path, attach the definition at the
last segment, descend into `subcategories`. -/
def insertWalk (cfg : List (String × String)) (coll : Schema) :
    List String → String → Nat → CatForest → Nat → CatForest × Nat
  | [], _, _, lvl, ctr => (lvl, ctr)
  | part :: rest, parentPath, index, lvl, ctr =>
    let currentPath := childPath parentPath part
    let found := lookupF lvl part
    let node := found.getD (newNodeAt cfg currentPath index ctr part)
    let ctr₁ := if found.isSome then ctr else ctr + 1
    let node₁ := if rest.isEmpty then attachCollection coll node else node
    let walked := insertWalk cfg coll rest currentPath (index + 1) node₁.subcategories ctr₁
    (setF lvl part (node₁.withSubcategories walked.1), walked.2)

/-- The outer loop of lines 661-702: definitions with a falsy (empty) path
are skipped with a warning. -/
def createStructure (cfg : List (String × String)) (cols : List Schema)
    (lvl : CatForest) (ctr : Nat) : CatForest × Nat :=
  match cols with
  | [] => (lvl, ctr)
  | c :: rest =>
    if c.path = "" then createStructure cfg rest lvl ctr
    else
      let walked := insertWalk cfg c (splitSlash c.path) "" 0 lvl ctr
      createStructure cfg rest walked.1 walked.2

/-- Walk a segment list from the root of the built structure down to the
node it addresses. -/
def findPath : List String → CatForest → Option CategoryData
  | [], _ => none
  | part :: rest, lvl =>
    (lookupF lvl part).bind fun n =>
      if rest.isEmpty then some n else findPath rest n.subcategories

/-! ## Array conversion (`processCategory`, lines 705-729) -/

mutual
inductive Category where
  | mk (id : Nat) (name : String) (icon : String) (collections : List Schema)
       (subcategories : Option CatList)
inductive CatList where
  | nil
  | cons (key : String) (cat : Category) (rest : CatList)
end

def CatList.isEmpty : CatList → Bool
  | .nil => true
  | .cons _ _ _ => false

mutual
def processCategory (name : String) (cat : CategoryData) (parentPath : String) : Category :=
  match cat with
  | .mk i _ ic subs cols _ =>
    let currentPath := if parentPath = "" then name else parentPath ++ "/" ++ name
    let processed := processSubs subs currentPath
    Category.mk i name ic cols (if processed.isEmpty then none else some processed)
def processSubs (f : CatForest) (currentPath : String) : CatList :=
  match f with
  | .nil => .nil
  | .cons k n rest =>
    if n.isCollection then processSubs rest currentPath
    else CatList.cons k (processCategory k n currentPath) (processSubs rest currentPath)
end

/-- Lines 727-729: top-level grouping nodes (non-collection entries of the
structure) become the returned category array. -/
def rootCategories : CatForest → List Category
  | .nil => []
  | .cons k n rest =>
    if n.isCollection then rootCategories rest
    else processCategory k n "" :: rootCategories rest

/-! ## Manager state (fields of `CollectionManager`, lines 82-89)

`Date.now()` is the `clock` field, advanced whenever the manager stamps an
entry, so successive stamps are strictly increasing; `createRandomID()` is
the `idCtr` draw; the log of per-source errors is kept as a list so that
"logs each failing source" is observable. -/

structure MgrState where
  collectionCache : Cache Schema
  categoryCache : Cache CategoryData
  fileHashCache : Cache String
  collectionAccessCount : List (String × Nat)
  initialized : Bool
  loadedCollections : List Schema
  loadedCategories : List Category
  idCtr : Nat
  clock : Nat
  errorLog : List String

abbrev RedisStore := Redis Category

/-- `clearCacheValue` (lines 214-224): clear the distributed tier when
available, then delete the key from all three local maps. -/
def clearCacheValue (browser redisOn : Bool) (k : String) (s : MgrState)
    (redis : RedisStore) : MgrState × RedisStore :=
  let redis₁ := if !browser && redisOn then deleteA redis ("cms:" ++ k) else redis
  ({ s with collectionCache := deleteA s.collectionCache k
            categoryCache := deleteA s.categoryCache k
            fileHashCache := deleteA s.fileHashCache k }, redis₁)

/-- `(this.collectionAccessCount.get(name) || 0) + 1`. -/
def bumpCount (counts : List (String × Nat)) (k : String) : List (String × Nat) :=
  setA counts k ((lookupA counts k).getD 0 + 1)

/-- `lazyLoadCollection` (lines 268-297), server side.  `sources` maps a
file path to its evaluated module (`readFile` + `processModule` fused: a
missing path is the `ENOENT` rejection of `readFile`).  On that rejection
the `catch` block rethrows, so the result is an `Except.error`. -/
def lazyLoadCollection (redisOn : Bool) (sources : List (String × Module))
    (name : String) (s : MgrState) (redis : RedisStore) :
    Except String (Option Schema) × MgrState × RedisStore :=
  let cacheKey := "collection_" ++ name
  let read := getCacheValue false redisOn redis projSchema s.clock cacheKey s.collectionCache
  let s₁ := { s with collectionCache := read.2, clock := s.clock + 1 }
  match read.1 with
  | some cached =>
    (Except.ok (some cached),
     { s₁ with collectionAccessCount := bumpCount s₁.collectionAccessCount name }, redis)
  | none =>
    let path := "config/collections/" ++ name ++ ".ts"
    match lookupA sources path with
    | none =>
      (Except.error ("Failed to lazy load collection: " ++ name),
       { s₁ with errorLog := s₁.errorLog ++ ["Failed to lazy load collection " ++ name] },
       redis)
    | some content =>
      match processCollectionFile path content s₁.idCtr with
      | (none, ctr) => (Except.ok none, { s₁ with idCtr := ctr }, redis)
      | (some schema, ctr) =>
        let written := setCacheValue false redisOn redis RedisVal.schema s₁.clock cacheKey
          schema s₁.collectionCache
        (Except.ok (some schema),
         { s₁ with collectionCache := written.1
                   idCtr := ctr
                   clock := s₁.clock + 1
                   collectionAccessCount := bumpCount s₁.collectionAccessCount name },
         written.2)

/-! ## Batch loading (`loadCollections`, lines 323-447, dev branch)

The module table of `import.meta.glob` is the `modules` parameter.  The
production strategies (remote structure API, compiled artifact directory)
are external source providers and not part of this model. -/

def filterModules (modules : List (String × Module)) : List (String × Module) :=
  modules.filter (fun p => !(EXCLUDED_FILES.contains (lastSegment p.1)))

def countOf (counts : List (String × Nat)) (k : String) : Nat :=
  (lookupA counts k).getD 0

/-- Stable descending sort by access count, modelling
`filteredModules.sort(([a], [b]) => countB - countA)`. -/
def insertByCount (counts : List (String × Nat)) (p : String × Module) :
    List (String × Module) → List (String × Module)
  | [] => [p]
  | q :: rest =>
    if countOf counts q.1 > countOf counts p.1 then q :: insertByCount counts p rest
    else p :: q :: rest

def sortByAccess (counts : List (String × Nat)) : List (String × Module) → List (String × Module)
  | [] => []
  | p :: rest => insertByCount counts p (sortByAccess counts rest)

/-- The dev-mode `for` loop (lines 353-404): process each module, skip and
log failures, push successes and write each through the cache. -/
def devLoop (browser redisOn : Bool) (modules : List (String × Module)) (s : MgrState)
    (redis : RedisStore) : List Schema × MgrState × RedisStore :=
  match modules with
  | [] => ([], s, redis)
  | (filePath, m) :: rest =>
    match devProcessOne filePath m s.idCtr with
    | (none, ctr) =>
      devLoop browser redisOn rest
        { s with idCtr := ctr, errorLog := s.errorLog ++ [filePath] } redis
    | (some schema, ctr) =>
      let written := setCacheValue browser redisOn redis RedisVal.schema s.clock filePath
        schema s.collectionCache
      let out := devLoop browser redisOn rest
        { s with collectionCache := written.1, idCtr := ctr, clock := s.clock + 1 } written.2
      (schema :: out.1, out.2)

def loadCollections (browser redisOn : Bool) (modules : List (String × Module))
    (s : MgrState) (redis : RedisStore) : List Schema × MgrState × RedisStore :=
  match (if !browser && redisOn then projSchemaList (lookupA redis "cms:all_collections")
         else none) with
  | some cached => (cached, { s with loadedCollections := cached }, redis)
  | none =>
    let sorted := sortByAccess s.collectionAccessCount (filterModules modules)
    let looped := devLoop browser redisOn sorted s redis
    let redis₁ :=
      if !browser && redisOn then
        setA looped.2.2 "cms:all_collections" (RedisVal.schemaList looped.1)
      else looped.2.2
    (looped.1, { looped.2.1 with loadedCollections := looped.1 }, redis₁)

/-- `createCategories` (lines 646-748): serve the category array from the
distributed tier when possible; otherwise rebuild it from the values of
the local collection cache, publish it to Redis, and repopulate the local
category cache from the top-level structure entries. -/
def forestToCache (f : CatForest) (now : Nat) : Cache CategoryData :=
  match f with
  | .nil => []
  | .cons k n rest => (k, ⟨n, now⟩) :: forestToCache rest now

def createCategories (browser redisOn : Bool) (cfg : List (String × String))
    (s : MgrState) (redis : RedisStore) : List Category × MgrState × RedisStore :=
  match (if !browser && redisOn then projCategoryList (lookupA redis "cms:categories")
         else none) with
  | some cached => (cached, { s with loadedCategories := cached }, redis)
  | none =>
    let collectionsList := s.collectionCache.map (fun p => p.2.value)
    let built := createStructure cfg collectionsList .nil s.idCtr
    let arr := rootCategories built.1
    let redis₁ :=
      if !browser && redisOn then setA redis "cms:categories" (RedisVal.categoryList arr)
      else redis
    (arr,
     { s with loadedCategories := arr
              categoryCache := forestToCache built.1 s.clock
              idCtr := built.2
              clock := s.clock + 1 }, redis₁)

/-- The `if (recompile)` block of `updateCollections` (lines 598-605):
clear the local collection and file-hash caches and the distributed
definition list. -/
def recompileClear (browser redisOn : Bool) (s : MgrState) (redis : RedisStore) :
    MgrState × RedisStore :=
  ({ s with collectionCache := [], fileHashCache := [] },
   if !browser && redisOn then deleteA redis "cms:all_collections" else redis)

/-- `updateCollections` (lines 595-643).  The store publications at lines
629-634 go to external Svelte stores and have no state here. -/
def updateCollections (browser redisOn : Bool) (cfg : List (String × String))
    (modules : List (String × Module)) (recompile : Bool) (s : MgrState)
    (redis : RedisStore) : MgrState × RedisStore :=
  let cleared := if recompile then recompileClear browser redisOn s redis else (s, redis)
  let loaded := loadCollections browser redisOn modules cleared.1 cleared.2
  let cats := createCategories browser redisOn cfg loaded.2.1 loaded.2.2
  (cats.2.1, cats.2.2)

/-- `getCollectionData` (lines 300-305). -/
def getCollectionData (s : MgrState) : List Schema × List Category :=
  (s.loadedCollections, s.loadedCategories)

/-! ## Singleton initialization (lines 62-121)

`getInstance` checks and creates the singleton with no intervening
suspension point, so under the cooperative scheduler the check-and-create
runs atomically; the constructor stores `initializationPromise` (identified
here by a number) and launches the one initialization body, whose single
`updateCollections(true) → loadCollections()` chain performs exactly one
enumeration of the definition sources — `listSourcesPasses` counts those
enumerations.  `waitForInitialization` merely awaits the stored promise. -/

structure InitSystem where
  instanceExists : Bool
  initPromiseStored : Option Nat
  initPassesStarted : Nat
  listSourcesPasses : Nat
  deriving Repr, DecidableEq

def initialSystem : InitSystem :=
  { instanceExists := false, initPromiseStored := none
    initPassesStarted := 0, listSourcesPasses := 0 }

def getInstance (browser : Bool) (s : InitSystem) : InitSystem :=
  if s.instanceExists then s
  else if browser then { s with instanceExists := true }
  else
    { instanceExists := true
      initPromiseStored := some s.initPassesStarted
      initPassesStarted := s.initPassesStarted + 1
      listSourcesPasses := s.listSourcesPasses + 1 }

/-- One first-time caller: obtain the singleton, then await
`waitForInitialization`, which returns the stored promise (or none on the
browser, where the constructor stores nothing). -/
def callerStep (browser : Bool) (s : InitSystem) : InitSystem × Option Nat :=
  let s₁ := getInstance browser s
  (s₁, s₁.initPromiseStored)

def runCallers (browser : Bool) : Nat → InitSystem → InitSystem × List (Option Nat)
  | 0, s => (s, [])
  | n + 1, s =>
    let step := callerStep browser s
    let rest := runCallers browser n step.1
    (rest.1, step.2 :: rest.2)

/-! ## Supporting lemmas -/

theorem length_setA_le {α : Type} (l : List (String × α)) (k : String) (v : α) :
    (setA l k v).length ≤ l.length + 1 := by
  induction l with
  | nil => simp [setA]
  | cons p rest ih =>
    obtain ⟨k₀, v₀⟩ := p
    by_cases h : k₀ = k
    · simp [setA, h]
    · simp only [setA, if_neg h, List.length_cons]
      omega

theorem trimCache_eq_of_le {V : Type} (c : Cache V) (h : c.length ≤ MAX_CACHE_SIZE) :
    trimCache c = c := by
  simp [trimCache, Nat.not_lt.mpr h]

/-- A sample definition used by concrete witnesses. -/
def sampleSchema : Schema :=
  { id := "s1", name := "posts", label := "posts", slug := "posts", icon := "bi:file"
    description := "", strict := false, revision := false, path := "posts"
    permissions := [], livePreview := false, fields := [] }

def sampleSchema₂ : Schema :=
  { id := "s2", name := "news", label := "news", slug := "news", icon := ""
    description := "", strict := false, revision := false, path := "media/news"
    permissions := [], livePreview := false, fields := [] }

/-- An empty manager state for concrete scenarios. -/
def emptyState : MgrState :=
  { collectionCache := [], categoryCache := [], fileHashCache := []
    collectionAccessCount := [], initialized := false
    loadedCollections := [], loadedCategories := [], idCtr := 0, clock := 0
    errorLog := [] }

/-! ## C2 — cache TTL -/

/-- C2.  An entry set into the local cache at time `T` (with room so that
the write is not immediately trimmed away, and without the distributed
tier, which serves reads before the local tier ever consults its
timestamps): read at any time strictly more than `CACHE_TTL` after `T` it
is reported absent and deleted from the cache; read at or before
`T + CACHE_TTL` it is reported present with its original value and the
cache is left unchanged. -/
theorem C2_cache_ttl (c : Cache Schema) (k : String) (v : Schema) (T now : Nat)
    (hroom : c.length < MAX_CACHE_SIZE) :
    ((T + CACHE_TTL < now →
        getCacheValue false false ([] : RedisStore) projSchema now k
            (setCacheValue false false ([] : RedisStore) RedisVal.schema T k v c).1 =
          (none, deleteA (setCacheValue false false ([] : RedisStore) RedisVal.schema T k v c).1 k)) ∧
      (now ≤ T + CACHE_TTL →
        getCacheValue false false ([] : RedisStore) projSchema now k
            (setCacheValue false false ([] : RedisStore) RedisVal.schema T k v c).1 =
          (some v, (setCacheValue false false ([] : RedisStore) RedisVal.schema T k v c).1))) := by
  have hlen : (setA c k (⟨v, T⟩ : CacheEntry Schema)).length ≤ MAX_CACHE_SIZE := by
    have := length_setA_le c k (⟨v, T⟩ : CacheEntry Schema)
    omega
  have hset : (setCacheValue false false ([] : RedisStore) RedisVal.schema T k v c).1 =
      setA c k ⟨v, T⟩ := by
    simp [setCacheValue, trimCache_eq_of_le _ hlen]
  constructor
  · intro hexp
    rw [hset]
    have hc : now - T > CACHE_TTL := by omega
    simp [getCacheValue, projSchema, lookupA_setA_self, hc]
  · intro hfresh
    rw [hset]
    have hc : ¬ now - T > CACHE_TTL := by omega
    simp [getCacheValue, projSchema, lookupA_setA_self, hc]

theorem C2_cache_ttl_witness :
    ([(("old" : String), (⟨sampleSchema₂, 0⟩ : CacheEntry Schema))].length < MAX_CACHE_SIZE) ∧
      ((10 + CACHE_TTL < 300011 →
        getCacheValue false false ([] : RedisStore) projSchema 300011 "k"
            (setCacheValue false false ([] : RedisStore) RedisVal.schema 10 "k" sampleSchema
              [("old", ⟨sampleSchema₂, 0⟩)]).1 =
          (none, deleteA (setCacheValue false false ([] : RedisStore) RedisVal.schema 10 "k" sampleSchema
              [("old", ⟨sampleSchema₂, 0⟩)]).1 "k")) ∧
      (300011 ≤ 10 + CACHE_TTL →
        getCacheValue false false ([] : RedisStore) projSchema 300011 "k"
            (setCacheValue false false ([] : RedisStore) RedisVal.schema 10 "k" sampleSchema
              [("old", ⟨sampleSchema₂, 0⟩)]).1 =
          (some sampleSchema, (setCacheValue false false ([] : RedisStore) RedisVal.schema 10 "k" sampleSchema
              [("old", ⟨sampleSchema₂, 0⟩)]).1))) :=
  ⟨by decide, C2_cache_ttl [("old", ⟨sampleSchema₂, 0⟩)] "k" sampleSchema 10 300011 (by decide)⟩

/-! ## C10 — cross-group deletion -/

/-- C10.  One `clearCacheValue(key)` call removes the key from all three
local cache groups at once (collection, category and file-hash caches),
leaves every other key in every group untouched, and removes the
corresponding prefixed key from the distributed tier when it is available
(server side with Redis enabled). -/
theorem C10_clear_all_groups (redisOn : Bool) (k : String) (s : MgrState)
    (redis : RedisStore)
    (h₁ : (keysA s.collectionCache).Nodup) (h₂ : (keysA s.categoryCache).Nodup)
    (h₃ : (keysA s.fileHashCache).Nodup) (h₄ : (keysA redis).Nodup) :
    lookupA (clearCacheValue false redisOn k s redis).1.collectionCache k = none ∧
    lookupA (clearCacheValue false redisOn k s redis).1.categoryCache k = none ∧
    lookupA (clearCacheValue false redisOn k s redis).1.fileHashCache k = none ∧
    (∀ j, j ≠ k →
      lookupA (clearCacheValue false redisOn k s redis).1.collectionCache j =
        lookupA s.collectionCache j ∧
      lookupA (clearCacheValue false redisOn k s redis).1.categoryCache j =
        lookupA s.categoryCache j ∧
      lookupA (clearCacheValue false redisOn k s redis).1.fileHashCache j =
        lookupA s.fileHashCache j) ∧
    (redisOn = true →
      lookupA (clearCacheValue false redisOn k s redis).2 ("cms:" ++ k) = none) ∧
    (∀ j, j ≠ "cms:" ++ k →
      lookupA (clearCacheValue false redisOn k s redis).2 j = lookupA redis j) := by
  refine ⟨?_, ?_, ?_, ?_, ?_, ?_⟩
  · exact lookupA_deleteA_self _ _ h₁
  · exact lookupA_deleteA_self _ _ h₂
  · exact lookupA_deleteA_self _ _ h₃
  · intro j hj
    exact ⟨lookupA_deleteA_other _ _ _ hj, lookupA_deleteA_other _ _ _ hj,
      lookupA_deleteA_other _ _ _ hj⟩
  · intro hOn
    simp only [clearCacheValue, hOn, Bool.not_false, Bool.and_self, if_pos]
    exact lookupA_deleteA_self _ _ h₄
  · intro j hj
    cases redisOn with
    | false => simp [clearCacheValue]
    | true =>
      simp only [clearCacheValue, Bool.not_false, Bool.and_self, if_pos]
      exact lookupA_deleteA_other _ _ _ hj

theorem C10_clear_all_groups_witness :
    ((keysA (emptyState.collectionCache)).Nodup ∧
     (keysA [(("a" : String), (⟨(CategoryData.mk 1 "a" "i" .nil [] false), 0⟩ :
        CacheEntry CategoryData))]).Nodup ∧
     (keysA (emptyState.fileHashCache)).Nodup ∧
     (keysA [(("cms:a" : String), (RedisVal.schema sampleSchema : RedisVal Category))]).Nodup) ∧
    (lookupA (clearCacheValue false true "a"
        { emptyState with
            categoryCache := [("a", ⟨CategoryData.mk 1 "a" "i" .nil [] false, 0⟩)] }
        [("cms:a", RedisVal.schema sampleSchema)]).1.categoryCache "a" = none) := by
  refine ⟨⟨?_, ?_, ?_, ?_⟩, ?_⟩
  · simp [emptyState, keysA]
  · simp [keysA]
  · simp [emptyState, keysA]
  · simp [keysA]
  · exact (C10_clear_all_groups true "a"
      { emptyState with
          categoryCache := [("a", ⟨CategoryData.mk 1 "a" "i" .nil [] false, 0⟩)] }
      [("cms:a", RedisVal.schema sampleSchema)]
      (by simp [emptyState, keysA]) (by simp [keysA])
      (by simp [emptyState, keysA]) (by simp [keysA])).2.1

/-! ## C8 — reads and eviction priority

The claim as stated fails on the code: when the distributed tier is
enabled and holds the key, `getCacheValue` rewrites the local entry with
`timestamp: Date.now()` during a read (lines 179-185), refreshing its
eviction priority.  Only a read actually served by the memory tier leaves
the timestamps untouched. -/

/-- C8 counterexample.  A concrete local cache whose key `k` carries
timestamp `5`; a read at time `9` with Redis enabled and holding `cms:k`
changes the stored timestamp of `k` to `9`. -/
theorem C8_counterexample :
    (lookupA (getCacheValue false true
        ([("cms:k", RedisVal.schema sampleSchema)] : RedisStore) projSchema 9 "k"
        [("k", ⟨sampleSchema₂, 5⟩)]).2 "k").map CacheEntry.timestamp ≠
      (lookupA ([("k", ⟨sampleSchema₂, 5⟩)] : Cache Schema) "k").map CacheEntry.timestamp := by
  decide

/-- C8 amended.  For every key, a cache read that the memory tier serves —
that is, whenever the distributed tier does not return the key (browser
mode, Redis disabled, or a tier-2 miss) and the local entry is within its
TTL — leaves the whole local cache, in particular every stored insertion
timestamp and hence the eviction priority, unchanged; only writes set
timestamps.  A tier-2 hit instead rewrites the local entry with a fresh
timestamp. -/
theorem C8_amended_memory_read_frame (browser redisOn : Bool) (redis : RedisStore)
    (now : Nat) (k : String) (c : Cache Schema) (e : CacheEntry Schema)
    (hmiss : (if !browser && redisOn then projSchema (lookupA redis ("cms:" ++ k))
              else none) = none)
    (hhit : lookupA c k = some e) (hfresh : ¬ now - e.timestamp > CACHE_TTL) :
    (getCacheValue browser redisOn redis projSchema now k c).2 = c ∧
    (getCacheValue browser redisOn redis projSchema now k c).1 = some e.value := by
  have h : getCacheValue browser redisOn redis projSchema now k c = (some e.value, c) := by
    unfold getCacheValue
    rw [hmiss, hhit]
    simp only [if_neg hfresh]
  rw [h]
  exact ⟨rfl, rfl⟩

theorem C8_amended_memory_read_frame_witness :
    ((if !false && true then projSchema (lookupA ([] : RedisStore) ("cms:" ++ "k"))
        else none) = none ∧
     lookupA ([("k", ⟨sampleSchema₂, 5⟩)] : Cache Schema) "k" = some ⟨sampleSchema₂, 5⟩ ∧
     ¬ (9 : Nat) - (5 : Nat) > CACHE_TTL) ∧
    ((getCacheValue false true ([] : RedisStore) projSchema 9 "k"
        [("k", ⟨sampleSchema₂, 5⟩)]).2 = [("k", ⟨sampleSchema₂, 5⟩)] ∧
     (getCacheValue false true ([] : RedisStore) projSchema 9 "k"
        [("k", ⟨sampleSchema₂, 5⟩)]).1 = some (⟨sampleSchema₂, 5⟩ : CacheEntry Schema).value) :=
  ⟨⟨by decide, by decide, by decide⟩,
   C8_amended_memory_read_frame false true [] 9 "k" [("k", ⟨sampleSchema₂, 5⟩)]
     ⟨sampleSchema₂, 5⟩ (by decide) (by decide) (by decide)⟩

/-! ## C7 — forced-recompile invalidation

The claim fails on the code: the `if (recompile)` block clears only the
definitions-group tiers — `collectionCache`, `fileHashCache` and the
distributed `cms:all_collections` entry — while the category caches are
untouched there, and the distributed `cms:categories` entry is never
cleared, so a forced recompile can serve a stale tree. -/

/-- A concrete stale tree entry for the C7 scenario. -/
def staleCategory : Category := Category.mk 7 "stale" "bi:folder" [] none

def staleNode : CategoryData := CategoryData.mk 7 "stale" "bi:folder" .nil [] false

def c7State : MgrState :=
  { emptyState with categoryCache := [("stale", ⟨staleNode, 0⟩)] }

def c7Redis : RedisStore := [("cms:categories", RedisVal.categoryList [staleCategory])]

/-- C7 counterexample.  With Redis enabled, a nonempty local category
cache and a stale distributed `cms:categories` entry, a full
`updateCollections(true)` leaves the local category cache uncleared,
leaves the distributed categories entry in place, and even publishes the
stale array as the new category snapshot — so not all cache tiers of the
tree-structure group are cleared before reloading. -/
theorem C7_counterexample :
    (updateCollections false true [] [] true c7State c7Redis).1.categoryCache =
        c7State.categoryCache ∧
      lookupA (updateCollections false true [] [] true c7State c7Redis).2
          "cms:categories" = some (RedisVal.categoryList [staleCategory]) ∧
      (updateCollections false true [] [] true c7State c7Redis).1.loadedCategories =
        [staleCategory] :=
  ⟨rfl, rfl, rfl⟩

/-- C7 amended.  When `updateCollections` runs with `forceRecompile` true,
its clear phase empties the local collection cache and file-hash cache and
removes the distributed definitions entry (`cms:all_collections`) before
reloading begins — but only the definitions group: the local category
cache and the distributed `cms:categories` entry survive the clear phase
unchanged. -/
theorem C7_amended_recompile_clears_definitions_group (redisOn : Bool) (s : MgrState)
    (redis : RedisStore) (hnd : (keysA redis).Nodup) :
    (recompileClear false redisOn s redis).1.collectionCache = [] ∧
    (recompileClear false redisOn s redis).1.fileHashCache = [] ∧
    (redisOn = true →
      lookupA (recompileClear false redisOn s redis).2 "cms:all_collections" = none) ∧
    (recompileClear false redisOn s redis).1.categoryCache = s.categoryCache ∧
    lookupA (recompileClear false redisOn s redis).2 "cms:categories" =
      lookupA redis "cms:categories" := by
  refine ⟨rfl, rfl, ?_, rfl, ?_⟩
  · intro hOn
    simp only [recompileClear, hOn, Bool.not_false, Bool.and_self, if_pos]
    exact lookupA_deleteA_self _ _ hnd
  · cases redisOn with
    | false => simp [recompileClear]
    | true =>
      simp only [recompileClear, Bool.not_false, Bool.and_self, if_pos]
      exact lookupA_deleteA_other _ _ _ (by decide)

theorem C7_amended_recompile_clears_definitions_group_witness :
    (keysA c7Redis).Nodup ∧
    ((recompileClear false true c7State c7Redis).1.collectionCache = [] ∧
     (recompileClear false true c7State c7Redis).1.fileHashCache = [] ∧
     (true = true →
       lookupA (recompileClear false true c7State c7Redis).2 "cms:all_collections" = none) ∧
     (recompileClear false true c7State c7Redis).1.categoryCache = c7State.categoryCache ∧
     lookupA (recompileClear false true c7State c7Redis).2 "cms:categories" =
       lookupA c7Redis "cms:categories") :=
  ⟨by simp [c7Redis, keysA],
   C7_amended_recompile_clears_definitions_group true c7State c7Redis
     (by simp [c7Redis, keysA])⟩

/-! ## C1 — single-flight initialization -/

theorem getInstance_of_exists (browser : Bool) (s : InitSystem)
    (h : s.instanceExists = true) : getInstance browser s = s := by
  simp [getInstance, h]

theorem runCallers_of_exists (browser : Bool) (n : Nat) (s : InitSystem)
    (h : s.instanceExists = true) :
    runCallers browser n s = (s, List.replicate n s.initPromiseStored) := by
  induction n with
  | zero => simp [runCallers]
  | succ m ih =>
    simp [runCallers, callerStep, getInstance_of_exists browser s h, ih,
      List.replicate_succ]

/-- C1.  For every positive number `n` of first-time callers of
`waitForInitialization()` on the server (sequential, or concurrent —
`getInstance` contains no suspension point, so each caller's
check-and-create step is atomic under the cooperative scheduler): exactly
one initialization pass is ever started, the definition sources are
enumerated exactly once, every caller awaits the same stored
initialization promise, and no reachable intermediate state has more than
one initialization started (hence never two in flight). -/
theorem C1_single_flight (n : Nat) (hn : 1 ≤ n) :
    (runCallers false n initialSystem).1.initPassesStarted = 1 ∧
    (runCallers false n initialSystem).1.listSourcesPasses = 1 ∧
    (runCallers false n initialSystem).2 = List.replicate n (some 0) ∧
    ∀ m, m ≤ n → (runCallers false m initialSystem).1.initPassesStarted ≤ 1 := by
  obtain ⟨k, rfl⟩ : ∃ k, n = k + 1 := ⟨n - 1, by omega⟩
  have hstep : getInstance false initialSystem =
      { instanceExists := true, initPromiseStored := some 0
        initPassesStarted := 1, listSourcesPasses := 1 } := by
    simp [getInstance, initialSystem]
  have hrun : ∀ j, runCallers false (j + 1) initialSystem =
      ({ instanceExists := true, initPromiseStored := some 0
         initPassesStarted := 1, listSourcesPasses := 1 },
       List.replicate (j + 1) (some 0)) := by
    intro j
    simp only [runCallers, callerStep, hstep]
    rw [runCallers_of_exists false j _ rfl]
    simp [List.replicate_succ]
  refine ⟨by rw [hrun k], by rw [hrun k], by rw [hrun k], ?_⟩
  intro m hm
  cases m with
  | zero => simp [runCallers, initialSystem]
  | succ j => rw [hrun j]

theorem C1_single_flight_witness :
    1 ≤ 3 ∧
    ((runCallers false 3 initialSystem).1.initPassesStarted = 1 ∧
     (runCallers false 3 initialSystem).1.listSourcesPasses = 1 ∧
     (runCallers false 3 initialSystem).2 = List.replicate 3 (some 0) ∧
     ∀ m, m ≤ 3 → (runCallers false m initialSystem).1.initPassesStarted ≤ 1) :=
  ⟨by decide, C1_single_flight 3 (by decide)⟩

/-! ## C3 — size-bounded eviction

Inserting a sequence of distinct keys through `setCacheValue` with the
manager clock ticking once per write (so insertion timestamps strictly
increase, as successive `Date.now()` stamps on this path do). -/

def insertSeq (inserts : List (String × Schema)) (t : Nat) (c : Cache Schema) : Cache Schema :=
  match inserts with
  | [] => c
  | (k, v) :: rest =>
    insertSeq rest (t + 1)
      (setCacheValue false false ([] : RedisStore) RedisVal.schema t k v c).1

/-- The entries such a write sequence stamps: the i-th insert carries
timestamp `t + i`. -/
def stampedFrom (inserts : List (String × Schema)) (t : Nat) : Cache Schema :=
  match inserts with
  | [] => []
  | (k, v) :: rest => (k, ⟨v, t⟩) :: stampedFrom rest (t + 1)

/-- The last `n` elements of a list. -/
def lastN {α : Type} (n : Nat) (l : List α) : List α := l.drop (l.length - n)

theorem lastN_of_le {α : Type} (n : Nat) (l : List α) (h : l.length ≤ n) : lastN n l = l := by
  unfold lastN
  rw [Nat.sub_eq_zero_of_le h, List.drop_zero]

theorem lastN_sublist {α : Type} (n : Nat) (l : List α) : List.Sublist (lastN n l) l :=
  List.drop_sublist _ _

theorem length_lastN {α : Type} (n : Nat) (l : List α) :
    (lastN n l).length = l.length - (l.length - n) := by
  unfold lastN
  rw [List.length_drop]

theorem lastN_append_absorb {α : Type} (n : Nat) (l S : List α) :
    lastN n (lastN n l ++ S) = lastN n (l ++ S) := by
  unfold lastN
  rw [← List.drop_append_of_le_length (Nat.sub_le l.length n)]
  rw [List.drop_drop]
  congr 1
  rw [List.length_drop, List.length_append]
  omega

theorem sortByTs_eq_of_sorted {V : Type} (c : Cache V)
    (h : c.Pairwise (fun p q => p.2.timestamp ≤ q.2.timestamp)) : sortByTs c = c := by
  induction c with
  | nil => rfl
  | cons p rest ih =>
    rw [List.pairwise_cons] at h
    rw [sortByTs, ih h.2]
    cases rest with
    | nil => rfl
    | cons q rest₂ => rw [insertByTs, if_pos (h.1 q (List.mem_cons_self q rest₂))]

theorem setA_append_of_not_mem {α : Type} (l : List (String × α)) (k : String) (v : α)
    (h : k ∉ keysA l) : setA l k v = l ++ [(k, v)] := by
  induction l with
  | nil => rfl
  | cons p rest ih =>
    obtain ⟨k₀, v₀⟩ := p
    simp only [keysA, List.map_cons, List.mem_cons, not_or] at h
    rw [setA, if_neg (fun hh => h.1 hh.symm), List.cons_append,
      ih (by simpa [keysA] using h.2)]

theorem filter_not_contains_single {V : Type} (l : Cache V) (k₀ : String)
    (h : k₀ ∉ keysA l) :
    l.filter (fun p => !(([k₀] : List String).contains p.1)) = l := by
  induction l with
  | nil => rfl
  | cons p rest ih =>
    simp only [keysA, List.map_cons, List.mem_cons, not_or] at h
    rw [List.filter_cons]
    have hne : ¬ p.1 = k₀ := fun hh => h.1 hh.symm
    have hc : (([k₀] : List String).contains p.1) = false := by
      simp [List.contains_cons, hne]
    rw [hc]
    simp only [Bool.not_false, if_true]
    rw [ih (by simpa [keysA] using h.2)]

theorem trimCache_drop_one {V : Type} (c : Cache V)
    (hnd : (keysA c).Nodup)
    (hs : c.Pairwise (fun p q => p.2.timestamp ≤ q.2.timestamp))
    (hlen : c.length = MAX_CACHE_SIZE + 1) :
    trimCache c = c.drop 1 := by
  cases c with
  | nil => simp [MAX_CACHE_SIZE] at hlen
  | cons p₀ rest =>
    unfold trimCache
    rw [if_pos (by omega)]
    rw [sortByTs_eq_of_sorted _ hs]
    have h1 : (p₀ :: rest).length - MAX_CACHE_SIZE = 1 := by omega
    rw [h1]
    have htake : (p₀ :: rest).take 1 = [p₀] := rfl
    rw [htake]
    rw [List.filter_cons]
    have hp₀ : ((keysA [p₀]).contains p₀.1) = true := by
      simp [keysA, List.contains_cons]
    rw [hp₀]
    simp only [Bool.not_true, if_neg Bool.false_ne_true]
    simp only [keysA, List.map_cons, List.nodup_cons] at hnd
    have hkeys : keysA [p₀] = [p₀.1] := rfl
    have hrest : p₀.1 ∉ keysA rest := by simpa [keysA] using hnd.1
    rw [hkeys, filter_not_contains_single rest p₀.1 hrest]
    rfl

theorem setCacheValue_fresh (c : Cache Schema) (k : String) (v : Schema) (t : Nat)
    (hk : k ∉ keysA c) (hnd : (keysA c).Nodup)
    (hs : c.Pairwise (fun p q => p.2.timestamp ≤ q.2.timestamp))
    (hb : ∀ p ∈ c, p.2.timestamp < t) (hlen : c.length ≤ MAX_CACHE_SIZE) :
    (setCacheValue false false ([] : RedisStore) RedisVal.schema t k v c).1 =
      lastN MAX_CACHE_SIZE (c ++ [(k, ⟨v, t⟩)]) := by
  have hset : setA c k (⟨v, t⟩ : CacheEntry Schema) = c ++ [(k, ⟨v, t⟩)] :=
    setA_append_of_not_mem c k _ hk
  have hstep : (setCacheValue false false ([] : RedisStore) RedisVal.schema t k v c).1 =
      trimCache (c ++ [(k, ⟨v, t⟩)]) := by
    simp only [setCacheValue, hset]
  rw [hstep]
  have hsorted : List.Pairwise (fun (p q : String × CacheEntry Schema) =>
      p.2.timestamp ≤ q.2.timestamp) (c ++ [(k, ⟨v, t⟩)]) := by
    rw [List.pairwise_append]
    refine ⟨hs, List.pairwise_singleton _ _, ?_⟩
    intro p hp q hq
    rw [List.mem_singleton] at hq
    subst hq
    exact Nat.le_of_lt (hb p hp)
  have hlen₂ : (c ++ [(k, (⟨v, t⟩ : CacheEntry Schema))]).length = c.length + 1 := by
    simp
  rcases Nat.lt_or_ge c.length MAX_CACHE_SIZE with hc | hc
  · have ha : (c ++ [(k, (⟨v, t⟩ : CacheEntry Schema))]).length ≤ MAX_CACHE_SIZE := by
      omega
    rw [trimCache_eq_of_le _ ha, lastN_of_le _ _ ha]
  · have hceq : c.length = MAX_CACHE_SIZE := Nat.le_antisymm hlen hc
    have hknd : (keysA (c ++ [(k, (⟨v, t⟩ : CacheEntry Schema))])).Nodup := by
      have hkeq : keysA (c ++ [(k, (⟨v, t⟩ : CacheEntry Schema))]) = keysA c ++ [k] := by
        simp [keysA]
      rw [hkeq, List.nodup_append]
      refine ⟨hnd, List.nodup_singleton k, ?_⟩
      intro a ha hb₂
      rw [List.mem_singleton] at hb₂
      subst hb₂
      exact hk ha
    have hl₃ : (c ++ [(k, (⟨v, t⟩ : CacheEntry Schema))]).length = MAX_CACHE_SIZE + 1 := by
      omega
    rw [trimCache_drop_one _ hknd hsorted hl₃]
    unfold lastN
    congr 1
    omega

theorem keysA_stampedFrom (l : List (String × Schema)) :
    ∀ t, keysA (stampedFrom l t) = l.map Prod.fst := by
  induction l with
  | nil => intro t; rfl
  | cons p rest ih =>
    obtain ⟨k, v⟩ := p
    intro t
    have hstep : keysA (stampedFrom ((k, v) :: rest) t) =
        k :: keysA (stampedFrom rest (t + 1)) := rfl
    rw [hstep, ih (t + 1)]
    rfl

theorem stampedFrom_length (l : List (String × Schema)) :
    ∀ t, (stampedFrom l t).length = l.length := by
  induction l with
  | nil => intro t; rfl
  | cons p rest ih =>
    obtain ⟨k, v⟩ := p
    intro t
    simp [stampedFrom, ih (t + 1)]

theorem stampedFrom_drop (l : List (String × Schema)) :
    ∀ j t, (stampedFrom l t).drop j = stampedFrom (l.drop j) (t + j) := by
  induction l with
  | nil => intro j t; simp [stampedFrom]
  | cons p rest ih =>
    obtain ⟨k, v⟩ := p
    intro j t
    cases j with
    | zero => simp [stampedFrom]
    | succ i =>
      rw [stampedFrom, List.drop_succ_cons, List.drop_succ_cons, ih i (t + 1)]
      congr 1
      omega

/-- The size-trimming invariant: inserting fresh distinct keys with
strictly increasing timestamps into a small, timestamp-sorted cache keeps
exactly the last `MAX_CACHE_SIZE` of all entries ever written. -/
theorem insertSeq_lastN (rest : List (String × Schema)) :
    ∀ (c : Cache Schema) (t : Nat),
      (keysA c ++ rest.map Prod.fst).Nodup →
      c.Pairwise (fun p q => p.2.timestamp ≤ q.2.timestamp) →
      (∀ p ∈ c, p.2.timestamp < t) →
      c.length ≤ MAX_CACHE_SIZE →
      insertSeq rest t c = lastN MAX_CACHE_SIZE (c ++ stampedFrom rest t) := by
  induction rest with
  | nil =>
    intro c t _ _ _ hlen
    rw [insertSeq, stampedFrom, List.append_nil, lastN_of_le _ _ hlen]
  | cons p rest ih =>
    obtain ⟨k, v⟩ := p
    intro c t hnd hs hb hlen
    rw [List.map_cons, List.nodup_append] at hnd
    obtain ⟨hnd1, hnd2, hdisj⟩ := hnd
    have hkc : k ∉ keysA c := fun h => hdisj h (List.mem_cons_self _ _)
    have hstep := setCacheValue_fresh c k v t hkc hnd1 hs hb hlen
    have hsorted : List.Pairwise (fun (p q : String × CacheEntry Schema) =>
        p.2.timestamp ≤ q.2.timestamp) (c ++ [(k, ⟨v, t⟩)]) := by
      rw [List.pairwise_append]
      refine ⟨hs, List.pairwise_singleton _ _, ?_⟩
      intro a ha b hbm
      rw [List.mem_singleton] at hbm
      subst hbm
      exact Nat.le_of_lt (hb a ha)
    have hsub : List.Sublist (lastN MAX_CACHE_SIZE (c ++ [(k, ⟨v, t⟩)]))
        (c ++ [(k, ⟨v, t⟩)]) := lastN_sublist _ _
    have hkeys : keysA (c ++ [(k, ⟨v, t⟩)]) = keysA c ++ [k] := by simp [keysA]
    have hnd₁ : (keysA (lastN MAX_CACHE_SIZE (c ++ [(k, ⟨v, t⟩)])) ++
        rest.map Prod.fst).Nodup := by
      have hksub : List.Sublist (keysA (lastN MAX_CACHE_SIZE (c ++ [(k, ⟨v, t⟩)])))
          (keysA c ++ [k]) := by
        rw [← hkeys]
        exact List.Sublist.map Prod.fst hsub
      have hbig : (keysA c ++ [k] ++ rest.map Prod.fst).Nodup := by
        rw [List.append_assoc, List.singleton_append, List.nodup_append]
        exact ⟨hnd1, hnd2, hdisj⟩
      exact hbig.sublist (hksub.append_right _)
    have hs₁ : (lastN MAX_CACHE_SIZE (c ++ [(k, ⟨v, t⟩)])).Pairwise
        (fun p q => p.2.timestamp ≤ q.2.timestamp) := hsorted.sublist hsub
    have hb₁ : ∀ p ∈ lastN MAX_CACHE_SIZE (c ++ [(k, ⟨v, t⟩)]),
        p.2.timestamp < t + 1 := by
      intro p hp
      have hp₂ := hsub.subset hp
      rw [List.mem_append] at hp₂
      rcases hp₂ with hin | hin
      · exact Nat.lt_succ_of_lt (hb p hin)
      · rw [List.mem_singleton] at hin
        subst hin
        exact Nat.lt_succ_self t
    have hlen₁ : (lastN MAX_CACHE_SIZE (c ++ [(k, ⟨v, t⟩)])).length ≤ MAX_CACHE_SIZE := by
      rw [length_lastN]
      omega
    have heq1 : insertSeq ((k, v) :: rest) t c = insertSeq rest (t + 1)
        (setCacheValue false false ([] : RedisStore) RedisVal.schema t k v c).1 := rfl
    have heq2 : stampedFrom ((k, v) :: rest) t =
        (k, (⟨v, t⟩ : CacheEntry Schema)) :: stampedFrom rest (t + 1) := rfl
    rw [heq1, heq2]
    generalize hA : c ++ [(k, (⟨v, t⟩ : CacheEntry Schema))] = A at hstep hnd₁ hs₁ hb₁ hlen₁
    have hrec := ih (lastN MAX_CACHE_SIZE A) (t + 1) hnd₁ hs₁ hb₁ hlen₁
    rw [hstep, hrec, lastN_append_absorb, ← hA, List.append_assoc, List.singleton_append]

/-- C3.  After inserting `MAX_CACHE_SIZE + k` distinct keys (`k ≥ 1`) into
one cache group through `setCacheValue`, exactly `MAX_CACHE_SIZE` (100)
entries remain, and they are exactly the `MAX_CACHE_SIZE`
most-recently-inserted ones with their original values and timestamps —
the `k` oldest-by-insertion-timestamp entries are the ones dropped. -/
theorem C3_eviction_bound (inserts : List (String × Schema)) (t₀ k : Nat)
    (hnd : (inserts.map Prod.fst).Nodup) (hk : 1 ≤ k)
    (hlen : inserts.length = MAX_CACHE_SIZE + k) :
    insertSeq inserts t₀ [] = stampedFrom (inserts.drop k) (t₀ + k) ∧
    (insertSeq inserts t₀ []).length = MAX_CACHE_SIZE ∧
    keysA (insertSeq inserts t₀ []) = (inserts.map Prod.fst).drop k := by
  have h := insertSeq_lastN inserts [] t₀ (by simpa [keysA] using hnd)
    (List.Pairwise.nil) (by simp) (by simp [MAX_CACHE_SIZE])
  rw [List.nil_append] at h
  have hlst : lastN MAX_CACHE_SIZE (stampedFrom inserts t₀) =
      stampedFrom (inserts.drop k) (t₀ + k) := by
    unfold lastN
    rw [stampedFrom_length, hlen]
    have : MAX_CACHE_SIZE + k - MAX_CACHE_SIZE = k := by omega
    rw [this, stampedFrom_drop]
  refine ⟨h.trans hlst, ?_, ?_⟩
  · rw [h.trans hlst, stampedFrom_length, List.length_drop, hlen]
    omega
  · rw [h.trans hlst, keysA_stampedFrom, List.map_drop]

/-- 101 distinct keys for the eviction witness. -/
def c3Inserts : List (String × Schema) :=
  (List.range (MAX_CACHE_SIZE + 1)).map (fun i => (toString i, sampleSchema))

theorem C3_eviction_bound_witness :
    ((c3Inserts.map Prod.fst).Nodup ∧ 1 ≤ 1 ∧
      c3Inserts.length = MAX_CACHE_SIZE + 1) ∧
    (insertSeq c3Inserts 0 [] = stampedFrom (c3Inserts.drop 1) (0 + 1) ∧
     (insertSeq c3Inserts 0 []).length = MAX_CACHE_SIZE ∧
     keysA (insertSeq c3Inserts 0 []) = (c3Inserts.map Prod.fst).drop 1) :=
  ⟨⟨by decide, by decide, by decide⟩,
   C3_eviction_bound c3Inserts 0 1 (by decide) (by decide) (by decide)⟩

/-! ## C4 — partial-failure tolerance of batch loading

`eraseId` forgets the one normalization output that is not a function of
the source alone (the freshly drawn random identifier), so that "the
successfully compiled definitions" can be stated as a pure function of the
sources. -/

structure SchemaNoId where
  name : String
  label : String
  slug : String
  icon : String
  description : String
  strict : Bool
  revision : Bool
  path : String
  permissions : List (String × String)
  livePreview : Bool
  fields : List String
  deriving Repr, DecidableEq

def eraseId (s : Schema) : SchemaNoId :=
  { name := s.name, label := s.label, slug := s.slug, icon := s.icon
    description := s.description, strict := s.strict, revision := s.revision
    path := s.path, permissions := s.permissions, livePreview := s.livePreview
    fields := s.fields }

/-- What compiling one dev-mode source yields, identifier forgotten: a
pure function of the source. -/
def devCompileErased (filePath : String) (m : Module) : Option SchemaNoId :=
  match m with
  | none => none
  | some src =>
    let name := stripExt (lastSegment filePath)
    if name = "" then none
    else some (eraseId (mkDevSchema filePath name src ""))

theorem devProcessOne_erased (filePath : String) (m : Module) (ctr : Nat) :
    ((devProcessOne filePath m ctr).1).map eraseId = devCompileErased filePath m := by
  cases m with
  | none => rfl
  | some src =>
    simp only [devProcessOne, devCompileErased]
    by_cases h : stripExt (lastSegment filePath) = ""
    · simp [h]
    · cases hid : src.id with
      | none => simp [h, hid, eraseId, mkDevSchema]
      | some i => simp [h, hid, eraseId, mkDevSchema]

theorem devProcessOne_none_iff (filePath : String) (m : Module) (ctr : Nat) :
    (devProcessOne filePath m ctr).1 = none ↔ devCompiles filePath m = false := by
  cases m with
  | none => simp [devProcessOne, devCompiles]
  | some src =>
    simp only [devProcessOne, devCompiles]
    by_cases h : stripExt (lastSegment filePath) = ""
    · simp [h]
    · cases hid : src.id with
      | none => simp [h, hid]
      | some i => simp [h, hid]

theorem devLoop_partial_failure (mods : List (String × Module)) :
    ∀ (s : MgrState) (redis : RedisStore),
      (devLoop false false mods s redis).1.map eraseId =
        mods.filterMap (fun p => devCompileErased p.1 p.2) ∧
      (devLoop false false mods s redis).2.1.errorLog =
        s.errorLog ++ (mods.filter (fun p => !(devCompiles p.1 p.2))).map Prod.fst := by
  induction mods with
  | nil =>
    intro s redis
    exact ⟨rfl, (List.append_nil s.errorLog).symm⟩
  | cons p rest ih =>
    intro s redis
    obtain ⟨fp, m⟩ := p
    rcases hone : devProcessOne fp m s.idCtr with ⟨res, ctr⟩
    cases res with
    | none =>
      have hfail : devCompiles fp m = false := by
        have := devProcessOne_none_iff fp m s.idCtr
        rw [hone] at this
        exact this.mp rfl
      have hloop : devLoop false false ((fp, m) :: rest) s redis =
          devLoop false false rest
            { s with idCtr := ctr, errorLog := s.errorLog ++ [fp] } redis := by
        simp only [devLoop, hone]
      have herase : devCompileErased fp m = none := by
        rw [← devProcessOne_erased fp m s.idCtr, hone]
        rfl
      rw [hloop]
      obtain ⟨ih₁, ih₂⟩ := ih { s with idCtr := ctr, errorLog := s.errorLog ++ [fp] } redis
      refine ⟨?_, ?_⟩
      · rw [ih₁, List.filterMap_cons, herase]
      · rw [ih₂, List.filter_cons]
        simp only [hfail, Bool.not_false, if_true, List.map_cons, List.append_assoc,
          List.singleton_append]
    | some schema =>
      have herase : devCompileErased fp m = some (eraseId schema) := by
        rw [← devProcessOne_erased fp m s.idCtr, hone]
        rfl
      have hloop : devLoop false false ((fp, m) :: rest) s redis =
          ((schema :: (devLoop false false rest
              { s with
                  collectionCache := (setCacheValue false false redis RedisVal.schema
                    s.clock fp schema s.collectionCache).1
                  idCtr := ctr, clock := s.clock + 1 }
              (setCacheValue false false redis RedisVal.schema s.clock fp schema
                s.collectionCache).2).1),
            (devLoop false false rest
              { s with
                  collectionCache := (setCacheValue false false redis RedisVal.schema
                    s.clock fp schema s.collectionCache).1
                  idCtr := ctr, clock := s.clock + 1 }
              (setCacheValue false false redis RedisVal.schema s.clock fp schema
                s.collectionCache).2).2) := by
        simp only [devLoop, hone]
      have hok : devCompiles fp m = true := by
        rcases hcc : devCompiles fp m with _ | _
        · have := (devProcessOne_none_iff fp m s.idCtr).mpr hcc
          rw [hone] at this
          exact absurd this (by simp)
        · rfl
      rw [hloop]
      obtain ⟨ih₁, ih₂⟩ := ih
        { s with
            collectionCache := (setCacheValue false false redis RedisVal.schema
              s.clock fp schema s.collectionCache).1
            idCtr := ctr, clock := s.clock + 1 }
        (setCacheValue false false redis RedisVal.schema s.clock fp schema
          s.collectionCache).2
      refine ⟨?_, ?_⟩
      · rw [List.map_cons, ih₁, List.filterMap_cons, herase]
      · rw [ih₂, List.filter_cons]
        simp only [hok, Bool.not_true, if_neg Bool.false_ne_true]

/-- C4.  For every module table and manager state (dev mode, local tier
only): `loadCollections` returns exactly the successfully compiled
definitions, in processing order and identifier aside a pure function of
each source; it logs exactly the failing sources, one log entry each; and
it is a total function of the inputs — a bad source is skipped, never
aborting the batch. -/
theorem C4_partial_failure (mods : List (String × Module)) (s : MgrState)
    (redis : RedisStore) :
    (loadCollections false false mods s redis).1.map eraseId =
      (sortByAccess s.collectionAccessCount (filterModules mods)).filterMap
        (fun p => devCompileErased p.1 p.2) ∧
    (loadCollections false false mods s redis).2.1.errorLog =
      s.errorLog ++ ((sortByAccess s.collectionAccessCount
        (filterModules mods)).filter
          (fun p => !(devCompiles p.1 p.2))).map Prod.fst ∧
    (loadCollections false false mods s redis).2.1.loadedCollections =
      (loadCollections false false mods s redis).1 := by
  have hload : loadCollections false false mods s redis =
      (let looped := devLoop false false
        (sortByAccess s.collectionAccessCount (filterModules mods)) s redis
      (looped.1, { looped.2.1 with loadedCollections := looped.1 }, looped.2.2)) := rfl
  rw [hload]
  obtain ⟨h₁, h₂⟩ := devLoop_partial_failure
    (sortByAccess s.collectionAccessCount (filterModules mods)) s redis
  exact ⟨h₁, h₂, rfl⟩

/-! ## C9 — lazy loading

The claim as stated fails on the code: when the source file no longer
exists, `readFile` rejects with `ENOENT`, the `catch` block of
`lazyLoadCollection` logs and rethrows `Failed to lazy load collection`
(lines 291-295) — the caller gets an exception, not an absent result.
`null` is returned only when the source reads but fails to compile. -/

/-- C9 counterexample.  With no sources at all, lazy-loading a collection
raises instead of returning absent. -/
theorem C9_counterexample :
    (lazyLoadCollection false [] "missing" emptyState ([] : RedisStore)).1 =
      Except.error "Failed to lazy load collection: missing" ∧
    (lazyLoadCollection false [] "missing" emptyState ([] : RedisStore)).1 ≠
      Except.ok none := by
  have h1 : (lazyLoadCollection false [] "missing" emptyState ([] : RedisStore)).1 =
      Except.error "Failed to lazy load collection: missing" := rfl
  refine ⟨h1, ?_⟩
  rw [h1]
  intro h
  exact Except.noConfusion h

/-- C9 amended.  `lazyLoadCollection` checks the cache first; on a miss
with the source present and compiling, it returns the schema, writes it
through the cache and increments the access counter; on a miss with the
source present but failing to compile it returns absent; on a miss with
the source missing it logs and raises.  In every case the manager's
`initialized` (Ready) flag is unaffected. -/
theorem C9_amended_lazyLoad (sources : List (String × Module)) (name : String)
    (s : MgrState)
    (hmiss : lookupA s.collectionCache ("collection_" ++ name) = none)
    (hroom : s.collectionCache.length < MAX_CACHE_SIZE) :
    (lookupA sources ("config/collections/" ++ name ++ ".ts") = none →
      (lazyLoadCollection false sources name s ([] : RedisStore)).1 =
        Except.error ("Failed to lazy load collection: " ++ name) ∧
      (lazyLoadCollection false sources name s ([] : RedisStore)).2.1.initialized =
        s.initialized) ∧
    (∀ content, lookupA sources ("config/collections/" ++ name ++ ".ts") = some content →
      (∀ ctr, processCollectionFile ("config/collections/" ++ name ++ ".ts") content
          s.idCtr = (none, ctr) →
        (lazyLoadCollection false sources name s ([] : RedisStore)).1 = Except.ok none ∧
        (lazyLoadCollection false sources name s ([] : RedisStore)).2.1.initialized =
          s.initialized) ∧
      (∀ schema ctr, processCollectionFile ("config/collections/" ++ name ++ ".ts")
          content s.idCtr = (some schema, ctr) →
        (lazyLoadCollection false sources name s ([] : RedisStore)).1 =
          Except.ok (some schema) ∧
        lookupA (lazyLoadCollection false sources name s
            ([] : RedisStore)).2.1.collectionCache ("collection_" ++ name) =
          some ⟨schema, s.clock + 1⟩ ∧
        lookupA (lazyLoadCollection false sources name s
            ([] : RedisStore)).2.1.collectionAccessCount name =
          some ((lookupA s.collectionAccessCount name).getD 0 + 1) ∧
        (lazyLoadCollection false sources name s ([] : RedisStore)).2.1.initialized =
          s.initialized)) := by
  have hread : getCacheValue false false ([] : RedisStore) projSchema s.clock
      ("collection_" ++ name) s.collectionCache = (none, s.collectionCache) := by
    unfold getCacheValue
    rw [hmiss]
    rfl
  refine ⟨?_, ?_⟩
  · intro hsrc
    unfold lazyLoadCollection
    simp only [hread, hsrc]
    exact ⟨by trivial, by trivial⟩
  · intro content hsrc
    constructor
    · intro ctr hproc
      unfold lazyLoadCollection
      simp only [hread, hsrc, hproc]
      exact ⟨by trivial, by trivial⟩
    · intro schema ctr hproc
      have hset : (setCacheValue false false ([] : RedisStore) RedisVal.schema
          (s.clock + 1) ("collection_" ++ name) schema s.collectionCache).1 =
          setA s.collectionCache ("collection_" ++ name) ⟨schema, s.clock + 1⟩ := by
        have hlen : (setA s.collectionCache ("collection_" ++ name)
            (⟨schema, s.clock + 1⟩ : CacheEntry Schema)).length ≤ MAX_CACHE_SIZE := by
          have := length_setA_le s.collectionCache ("collection_" ++ name)
            (⟨schema, s.clock + 1⟩ : CacheEntry Schema)
          omega
        simp only [setCacheValue, trimCache_eq_of_le _ hlen]
      unfold lazyLoadCollection
      simp only [hread, hsrc, hproc]
      refine ⟨by trivial, ?_, ?_, by trivial⟩
      · rw [hset]
        exact lookupA_setA_self _ _ _
      · unfold bumpCount
        exact lookupA_setA_self _ _ _

def c9Src : SchemaSrc :=
  { id := some "idp", icon := some "bi:file", label := none, slug := none
    description := none, strict := none, revision := none, livePreview := none
    fields := some ["f1"], permissions := none }

def c9Sources : List (String × Module) := [("config/collections/posts.ts", some c9Src)]

theorem C9_amended_lazyLoad_witness :
    (lookupA emptyState.collectionCache ("collection_" ++ "posts") = none ∧
     emptyState.collectionCache.length < MAX_CACHE_SIZE) ∧
    ((lookupA c9Sources ("config/collections/" ++ "posts" ++ ".ts") = none →
      (lazyLoadCollection false c9Sources "posts" emptyState ([] : RedisStore)).1 =
        Except.error ("Failed to lazy load collection: " ++ "posts") ∧
      (lazyLoadCollection false c9Sources "posts" emptyState
        ([] : RedisStore)).2.1.initialized = emptyState.initialized) ∧
    (∀ content, lookupA c9Sources ("config/collections/" ++ "posts" ++ ".ts") =
        some content →
      (∀ ctr, processCollectionFile ("config/collections/" ++ "posts" ++ ".ts") content
          emptyState.idCtr = (none, ctr) →
        (lazyLoadCollection false c9Sources "posts" emptyState ([] : RedisStore)).1 =
          Except.ok none ∧
        (lazyLoadCollection false c9Sources "posts" emptyState
          ([] : RedisStore)).2.1.initialized = emptyState.initialized) ∧
      (∀ schema ctr, processCollectionFile ("config/collections/" ++ "posts" ++ ".ts")
          content emptyState.idCtr = (some schema, ctr) →
        (lazyLoadCollection false c9Sources "posts" emptyState ([] : RedisStore)).1 =
          Except.ok (some schema) ∧
        lookupA (lazyLoadCollection false c9Sources "posts" emptyState
            ([] : RedisStore)).2.1.collectionCache ("collection_" ++ "posts") =
          some ⟨schema, emptyState.clock + 1⟩ ∧
        lookupA (lazyLoadCollection false c9Sources "posts" emptyState
            ([] : RedisStore)).2.1.collectionAccessCount "posts" =
          some ((lookupA emptyState.collectionAccessCount "posts").getD 0 + 1) ∧
        (lazyLoadCollection false c9Sources "posts" emptyState
          ([] : RedisStore)).2.1.initialized = emptyState.initialized))) :=
  ⟨⟨rfl, by decide⟩, C9_amended_lazyLoad c9Sources "posts" emptyState rfl (by decide)⟩

/-! ## C5 — tree construction correctness -/

theorem lookupF_setF_self : ∀ (f : CatForest) (k : String) (n : CategoryData),
    lookupF (setF f k n) k = some n
  | .nil, k, n => by simp [setF, lookupF]
  | .cons k₀ n₀ rest, k, n => by
    by_cases h : k₀ = k
    · simp [setF, h, lookupF]
    · simp only [setF, if_neg h, lookupF, if_neg h]
      exact lookupF_setF_self rest k n

theorem lookupF_setF_other : ∀ (f : CatForest) (k j : String) (n : CategoryData),
    j ≠ k → lookupF (setF f k n) j = lookupF f j
  | .nil, k, j, n, hne => by simp [setF, lookupF, Ne.symm hne]
  | .cons k₀ n₀ rest, k, j, n, hne => by
    by_cases h : k₀ = k
    · subst h
      simp [setF, lookupF, Ne.symm hne]
    · simp only [setF, if_neg h, lookupF]
      by_cases h₂ : k₀ = j
      · simp [h₂]
      · simp only [if_neg h₂]
        exact lookupF_setF_other rest k j n hne

@[simp] theorem withSubcategories_subcategories (n : CategoryData) (f : CatForest) :
    (n.withSubcategories f).subcategories = f := by
  cases n
  rfl

@[simp] theorem withSubcategories_collections (n : CategoryData) (f : CatForest) :
    (n.withSubcategories f).collections = n.collections := by
  cases n
  rfl

@[simp] theorem attachCollection_collections (c : Schema) (n : CategoryData) :
    (attachCollection c n).collections = n.collections ++ [c] := rfl

@[simp] theorem attachCollection_subcategories (c : Schema) (n : CategoryData) :
    (attachCollection c n).subcategories = n.subcategories := rfl

theorem findPath_nil : ∀ qs : List String, findPath qs CatForest.nil = none
  | [] => rfl
  | _ :: _ => rfl

@[simp] theorem findPath_cons (part : String) (rest : List String) (lvl : CatForest) :
    findPath (part :: rest) lvl = (lookupF lvl part).bind fun n =>
      if rest.isEmpty then some n else findPath rest n.subcategories := rfl

@[simp] theorem mk_subcategories (i : Nat) (nm ic : String) (s : CatForest)
    (c : List Schema) (b : Bool) : (CategoryData.mk i nm ic s c b).subcategories = s := rfl

@[simp] theorem mk_collections (i : Nat) (nm ic : String) (s : CatForest)
    (c : List Schema) (b : Bool) : (CategoryData.mk i nm ic s c b).collections = c := rfl

@[simp] theorem mk_isCollection (i : Nat) (nm ic : String) (s : CatForest)
    (c : List Schema) (b : Bool) : (CategoryData.mk i nm ic s c b).isCollection = b := rfl

@[simp] theorem insertWalk_nil (cfg : List (String × String)) (coll : Schema)
    (parentPath : String) (index : Nat) (lvl : CatForest) (ctr : Nat) :
    insertWalk cfg coll [] parentPath index lvl ctr = (lvl, ctr) := rfl

/-- One inner-loop step when the segment node already exists. -/
theorem insertWalk_cons_some (cfg : List (String × String)) (coll : Schema)
    (part : String) (rest : List String) (parentPath : String) (index : Nat)
    (lvl : CatForest) (ctr : Nat) (n0 : CategoryData)
    (hfound : lookupF lvl part = some n0) :
    insertWalk cfg coll (part :: rest) parentPath index lvl ctr =
      (setF lvl part ((if rest.isEmpty then attachCollection coll n0
          else n0).withSubcategories
        (insertWalk cfg coll rest (childPath parentPath part) (index + 1)
          (if rest.isEmpty then attachCollection coll n0 else n0).subcategories ctr).1),
       (insertWalk cfg coll rest (childPath parentPath part) (index + 1)
          (if rest.isEmpty then attachCollection coll n0 else n0).subcategories ctr).2) := by
  simp only [insertWalk, hfound, Option.getD_some, Option.isSome_some, if_true]

/-- One inner-loop step when the segment node is freshly created. -/
theorem insertWalk_cons_none (cfg : List (String × String)) (coll : Schema)
    (part : String) (rest : List String) (parentPath : String) (index : Nat)
    (lvl : CatForest) (ctr : Nat)
    (hfound : lookupF lvl part = none) :
    insertWalk cfg coll (part :: rest) parentPath index lvl ctr =
      (setF lvl part ((if rest.isEmpty then
          attachCollection coll (newNodeAt cfg (childPath parentPath part) index ctr part)
          else newNodeAt cfg (childPath parentPath part) index ctr part).withSubcategories
        (insertWalk cfg coll rest (childPath parentPath part) (index + 1)
          (if rest.isEmpty then
            attachCollection coll (newNodeAt cfg (childPath parentPath part) index ctr part)
            else newNodeAt cfg (childPath parentPath part) index ctr
              part).subcategories (ctr + 1)).1),
       (insertWalk cfg coll rest (childPath parentPath part) (index + 1)
          (if rest.isEmpty then
            attachCollection coll (newNodeAt cfg (childPath parentPath part) index ctr part)
            else newNodeAt cfg (childPath parentPath part) index ctr
              part).subcategories (ctr + 1)).2) := by
  simp only [insertWalk, hfound, Option.getD_none, Option.isSome_none]
  rfl

/-- Membership: after inserting a definition along its nonempty path, the
walk of exactly that path finds a node holding the definition. -/
theorem insertWalk_mem (cfg : List (String × String)) (coll : Schema) :
    ∀ (parts : List String) (parentPath : String) (index : Nat) (lvl : CatForest)
      (ctr : Nat), parts ≠ [] →
      ∃ node, findPath parts (insertWalk cfg coll parts parentPath index lvl ctr).1 =
          some node ∧ coll ∈ node.collections := by
  intro parts
  induction parts with
  | nil => intro _ _ _ _ h; exact absurd rfl h
  | cons part rest ih =>
    intro parentPath index lvl ctr _
    cases hfound : lookupF lvl part with
    | some n0 =>
      rw [insertWalk_cons_some cfg coll part rest parentPath index lvl ctr n0 hfound]
      cases rest with
      | nil =>
        refine ⟨(attachCollection coll n0).withSubcategories
          (insertWalk cfg coll [] (childPath parentPath part) (index + 1)
            (if ([] : List String).isEmpty then attachCollection coll n0
              else n0).subcategories ctr).1, ?_, ?_⟩
        · rw [findPath_cons, lookupF_setF_self]
          simp
        · simp
      | cons q qrest =>
        have hne : (q :: qrest : List String) ≠ [] := by simp
        have hif : (if (q :: qrest : List String).isEmpty then attachCollection coll n0
            else n0) = n0 := by simp
        rw [hif]
        obtain ⟨nd, hf, hm⟩ := ih (childPath parentPath part) (index + 1)
          n0.subcategories ctr hne
        refine ⟨nd, ?_, hm⟩
        rw [findPath_cons, lookupF_setF_self]
        simpa using hf
    | none =>
      rw [insertWalk_cons_none cfg coll part rest parentPath index lvl ctr hfound]
      cases rest with
      | nil =>
        refine ⟨(attachCollection coll (newNodeAt cfg (childPath parentPath part)
            index ctr part)).withSubcategories
          (insertWalk cfg coll [] (childPath parentPath part) (index + 1)
            (if ([] : List String).isEmpty then
              attachCollection coll (newNodeAt cfg (childPath parentPath part) index ctr part)
              else newNodeAt cfg (childPath parentPath part) index ctr
                part).subcategories (ctr + 1)).1, ?_, ?_⟩
        · rw [findPath_cons, lookupF_setF_self]
          simp
        · simp [newNodeAt]
      | cons q qrest =>
        have hne : (q :: qrest : List String) ≠ [] := by simp
        have hif : (if (q :: qrest : List String).isEmpty then
            attachCollection coll (newNodeAt cfg (childPath parentPath part) index ctr part)
            else newNodeAt cfg (childPath parentPath part) index ctr part) =
            newNodeAt cfg (childPath parentPath part) index ctr part := by simp
        rw [hif]
        obtain ⟨nd, hf, hm⟩ := ih (childPath parentPath part) (index + 1)
          (newNodeAt cfg (childPath parentPath part) index ctr part).subcategories
          (ctr + 1) hne
        refine ⟨nd, ?_, hm⟩
        rw [findPath_cons, lookupF_setF_self]
        simpa using hf

@[simp] theorem findPath_nil_path (lvl : CatForest) : findPath [] lvl = none := rfl

/-- Monotonicity: an insert never removes a definition already reachable at
some path; the node there can only gain attached definitions. -/
theorem insertWalk_mono (cfg : List (String × String)) (coll : Schema) :
    ∀ (parts qs : List String) (parentPath : String) (index : Nat) (lvl : CatForest)
      (ctr : Nat) (node₀ : CategoryData),
      findPath qs lvl = some node₀ →
      ∃ node₁, findPath qs (insertWalk cfg coll parts parentPath index lvl ctr).1 =
          some node₁ ∧ ∀ x ∈ node₀.collections, x ∈ node₁.collections := by
  intro parts
  induction parts with
  | nil =>
    intro qs parentPath index lvl ctr node₀ h
    exact ⟨node₀, by simpa using h, fun x hx => hx⟩
  | cons part rest ih =>
    intro qs parentPath index lvl ctr node₀ h
    cases qs with
    | nil => simp at h
    | cons q qrest =>
      by_cases hq : q = part
      · subst hq
        cases hfound : lookupF lvl q with
        | none =>
          rw [findPath_cons, hfound] at h
          simp at h
        | some n0 =>
          rw [insertWalk_cons_some cfg coll q rest parentPath index lvl ctr n0 hfound]
          rw [findPath_cons, hfound] at h
          cases qrest with
          | nil =>
            simp only [List.isEmpty_nil, if_true, Option.some_bind] at h
            have hn0 : n0 = node₀ := by
              simpa using h
            subst hn0
            refine ⟨(if rest.isEmpty then attachCollection coll n0 else
                n0).withSubcategories
              (insertWalk cfg coll rest (childPath parentPath q) (index + 1)
                (if rest.isEmpty then attachCollection coll n0 else
                  n0).subcategories ctr).1, ?_, ?_⟩
            · rw [findPath_cons, lookupF_setF_self]
              simp
            · intro x hx
              by_cases hr : rest.isEmpty <;> simp [hr, hx]
          | cons qr qrs =>
            simp only [List.isEmpty_cons, Option.some_bind,
              if_neg Bool.false_ne_true] at h
            have hsubs : (if rest.isEmpty then attachCollection coll n0
                else n0).subcategories = n0.subcategories := by
              by_cases hr : rest.isEmpty <;> simp [hr]
            rw [hsubs]
            cases rest with
            | nil =>
              refine ⟨node₀, ?_, fun x hx => hx⟩
              rw [findPath_cons, lookupF_setF_self]
              simpa using h
            | cons r rs =>
              obtain ⟨nd, hf, hsup⟩ := ih (qr :: qrs) (childPath parentPath q)
                (index + 1) n0.subcategories ctr node₀ h
              refine ⟨nd, ?_, hsup⟩
              rw [findPath_cons, lookupF_setF_self]
              simpa using hf
      · cases hfound : lookupF lvl part with
        | some n0 =>
          rw [insertWalk_cons_some cfg coll part rest parentPath index lvl ctr n0 hfound]
          refine ⟨node₀, ?_, fun x hx => hx⟩
          rw [findPath_cons, lookupF_setF_other _ _ _ _ hq]
          rw [findPath_cons] at h
          exact h
        | none =>
          rw [insertWalk_cons_none cfg coll part rest parentPath index lvl ctr hfound]
          refine ⟨node₀, ?_, fun x hx => hx⟩
          rw [findPath_cons, lookupF_setF_other _ _ _ _ hq]
          rw [findPath_cons] at h
          exact h

/-- Provenance: any definition found attached after an insert was either
already attached at that same path before, or is the inserted definition
attached exactly at its own path. -/
theorem insertWalk_pres (cfg : List (String × String)) (coll : Schema) :
    ∀ (parts qs : List String) (parentPath : String) (index : Nat) (lvl : CatForest)
      (ctr : Nat) (node : CategoryData) (d : Schema),
      findPath qs (insertWalk cfg coll parts parentPath index lvl ctr).1 = some node →
      d ∈ node.collections →
      (∃ node₀, findPath qs lvl = some node₀ ∧ d ∈ node₀.collections) ∨
        (d = coll ∧ qs = parts) := by
  intro parts
  induction parts with
  | nil =>
    intro qs parentPath index lvl ctr node d hfind hd
    exact Or.inl ⟨node, by simpa using hfind, hd⟩
  | cons part rest ih =>
    intro qs parentPath index lvl ctr node d hfind hd
    cases qs with
    | nil => simp at hfind
    | cons q qrest =>
      by_cases hq : q = part
      · subst hq
        cases hfound : lookupF lvl q with
        | none =>
          rw [insertWalk_cons_none cfg coll q rest parentPath index lvl ctr hfound]
            at hfind
          rw [findPath_cons, lookupF_setF_self] at hfind
          cases qrest with
          | nil =>
            simp only [List.isEmpty_nil, if_true, Option.some_bind] at hfind
            have hnode : (if rest.isEmpty then
                attachCollection coll (newNodeAt cfg (childPath parentPath q) index ctr q)
                else newNodeAt cfg (childPath parentPath q) index ctr
                  q).withSubcategories
                (insertWalk cfg coll rest (childPath parentPath q) (index + 1)
                  (if rest.isEmpty then
                    attachCollection coll (newNodeAt cfg (childPath parentPath q)
                      index ctr q)
                    else newNodeAt cfg (childPath parentPath q) index ctr
                      q).subcategories (ctr + 1)).1 = node := by
              simpa using hfind
            cases rest with
            | nil =>
              rw [← hnode] at hd
              simp only [List.isEmpty_nil, if_true, withSubcategories_collections,
                attachCollection_collections] at hd
              simp only [newNodeAt, mk_collections, List.nil_append,
                List.mem_singleton] at hd
              exact Or.inr ⟨hd, rfl⟩
            | cons r rs =>
              rw [← hnode] at hd
              simp only [List.isEmpty_cons, if_neg Bool.false_ne_true,
                withSubcategories_collections] at hd
              simp only [newNodeAt, mk_collections] at hd
              simp at hd
          | cons qr qrs =>
            simp only [List.isEmpty_cons, Option.some_bind,
              if_neg Bool.false_ne_true, withSubcategories_subcategories] at hfind
            cases rest with
            | nil =>
              rw [insertWalk_nil] at hfind
              have hsubs : (if ([] : List String).isEmpty then
                  attachCollection coll (newNodeAt cfg (childPath parentPath q)
                    index ctr q)
                  else newNodeAt cfg (childPath parentPath q) index ctr
                    q).subcategories = CatForest.nil := by
                simp [newNodeAt]
              rw [hsubs] at hfind
              rw [findPath_nil] at hfind
              exact absurd hfind (by simp)
            | cons r rs =>
              have hsubs : (if (r :: rs : List String).isEmpty then
                  attachCollection coll (newNodeAt cfg (childPath parentPath q)
                    index ctr q)
                  else newNodeAt cfg (childPath parentPath q) index ctr
                    q).subcategories = CatForest.nil := by
                simp [newNodeAt]
              rw [hsubs] at hfind
              rcases ih (qr :: qrs) (childPath parentPath q) (index + 1)
                CatForest.nil (ctr + 1) node d hfind hd with ⟨node₀, hn₀, _⟩ | ⟨hdc, hqs⟩
              · rw [findPath_nil] at hn₀
                exact absurd hn₀ (by simp)
              · exact Or.inr ⟨hdc, by rw [hqs]⟩
        | some n0 =>
          rw [insertWalk_cons_some cfg coll q rest parentPath index lvl ctr n0 hfound]
            at hfind
          rw [findPath_cons, lookupF_setF_self] at hfind
          cases qrest with
          | nil =>
            simp only [List.isEmpty_nil, if_true, Option.some_bind] at hfind
            have hnode : (if rest.isEmpty then attachCollection coll n0
                else n0).withSubcategories
                (insertWalk cfg coll rest (childPath parentPath q) (index + 1)
                  (if rest.isEmpty then attachCollection coll n0
                    else n0).subcategories ctr).1 = node := by
              simpa using hfind
            cases rest with
            | nil =>
              rw [← hnode] at hd
              simp only [List.isEmpty_nil, if_true, withSubcategories_collections,
                attachCollection_collections, List.mem_append,
                List.mem_singleton] at hd
              rcases hd with hd | hd
              · refine Or.inl ⟨n0, ?_, hd⟩
                rw [findPath_cons, hfound]
                simp
              · exact Or.inr ⟨hd, rfl⟩
            | cons r rs =>
              rw [← hnode] at hd
              simp only [List.isEmpty_cons, if_neg Bool.false_ne_true,
                withSubcategories_collections] at hd
              refine Or.inl ⟨n0, ?_, hd⟩
              rw [findPath_cons, hfound]
              simp
          | cons qr qrs =>
            simp only [List.isEmpty_cons, Option.some_bind,
              if_neg Bool.false_ne_true, withSubcategories_subcategories] at hfind
            have hsubs : (if rest.isEmpty then attachCollection coll n0
                else n0).subcategories = n0.subcategories := by
              by_cases hr : rest.isEmpty <;> simp [hr]
            rw [hsubs] at hfind
            cases rest with
            | nil =>
              rw [insertWalk_nil] at hfind
              refine Or.inl ⟨node, ?_, hd⟩
              rw [findPath_cons, hfound]
              simpa using hfind
            | cons r rs =>
              rcases ih (qr :: qrs) (childPath parentPath q) (index + 1)
                n0.subcategories ctr node d hfind hd with ⟨node₀, hn₀, hdn⟩ | ⟨hdc, hqs⟩
              · refine Or.inl ⟨node₀, ?_, hdn⟩
                rw [findPath_cons, hfound]
                simpa using hn₀
              · exact Or.inr ⟨hdc, by rw [hqs]⟩
      · cases hfound : lookupF lvl part with
        | some n0 =>
          rw [insertWalk_cons_some cfg coll part rest parentPath index lvl ctr n0 hfound]
            at hfind
          rw [findPath_cons, lookupF_setF_other _ _ _ _ hq] at hfind
          rw [← findPath_cons] at hfind
          exact Or.inl ⟨node, hfind, hd⟩
        | none =>
          rw [insertWalk_cons_none cfg coll part rest parentPath index lvl ctr hfound]
            at hfind
          rw [findPath_cons, lookupF_setF_other _ _ _ _ hq] at hfind
          rw [← findPath_cons] at hfind
          exact Or.inl ⟨node, hfind, hd⟩

@[simp] theorem createStructure_nil (cfg : List (String × String)) (lvl : CatForest)
    (ctr : Nat) : createStructure cfg [] lvl ctr = (lvl, ctr) := rfl

theorem createStructure_cons_skip (cfg : List (String × String)) (c : Schema)
    (rest : List Schema) (lvl : CatForest) (ctr : Nat) (hp : c.path = "") :
    createStructure cfg (c :: rest) lvl ctr = createStructure cfg rest lvl ctr := by
  simp [createStructure, hp]

theorem createStructure_cons_ins (cfg : List (String × String)) (c : Schema)
    (rest : List Schema) (lvl : CatForest) (ctr : Nat) (hp : ¬ c.path = "") :
    createStructure cfg (c :: rest) lvl ctr =
      createStructure cfg rest (insertWalk cfg c (splitSlash c.path) "" 0 lvl ctr).1
        (insertWalk cfg c (splitSlash c.path) "" 0 lvl ctr).2 := by
  simp [createStructure, hp]

theorem createStructure_mono (cfg : List (String × String)) :
    ∀ (cols : List Schema) (lvl : CatForest) (ctr : Nat) (qs : List String)
      (node₀ : CategoryData),
      findPath qs lvl = some node₀ →
      ∃ node₁, findPath qs (createStructure cfg cols lvl ctr).1 = some node₁ ∧
        ∀ x ∈ node₀.collections, x ∈ node₁.collections := by
  intro cols
  induction cols with
  | nil =>
    intro lvl ctr qs node₀ h
    exact ⟨node₀, h, fun x hx => hx⟩
  | cons c rest ih =>
    intro lvl ctr qs node₀ h
    by_cases hp : c.path = ""
    · rw [createStructure_cons_skip cfg c rest lvl ctr hp]
      exact ih lvl ctr qs node₀ h
    · rw [createStructure_cons_ins cfg c rest lvl ctr hp]
      obtain ⟨nmid, hmid, hsup₁⟩ :=
        insertWalk_mono cfg c (splitSlash c.path) qs "" 0 lvl ctr node₀ h
      obtain ⟨node₁, hfin, hsup₂⟩ := ih _ _ qs nmid hmid
      exact ⟨node₁, hfin, fun x hx => hsup₂ x (hsup₁ x hx)⟩

theorem createStructure_mem (cfg : List (String × String)) :
    ∀ (cols : List Schema) (lvl : CatForest) (ctr : Nat) (c : Schema),
      c ∈ cols → c.path ≠ "" →
      ∃ node, findPath (splitSlash c.path) (createStructure cfg cols lvl ctr).1 =
          some node ∧ c ∈ node.collections := by
  intro cols
  induction cols with
  | nil =>
    intro lvl ctr c hc
    exact absurd hc (List.not_mem_nil c)
  | cons c₀ rest ih =>
    intro lvl ctr c hc hpath
    rcases List.mem_cons.mp hc with hc₀ | hcr
    · subst hc₀
      rw [createStructure_cons_ins cfg c rest lvl ctr hpath]
      obtain ⟨nmid, hmid, hcm⟩ :=
        insertWalk_mem cfg c (splitSlash c.path) "" 0 lvl ctr (splitSlash_ne_nil _)
      obtain ⟨node, hfin, hsup⟩ := createStructure_mono cfg rest _ _ _ nmid hmid
      exact ⟨node, hfin, hsup c hcm⟩
    · by_cases hp : c₀.path = ""
      · rw [createStructure_cons_skip cfg c₀ rest lvl ctr hp]
        exact ih lvl ctr c hcr hpath
      · rw [createStructure_cons_ins cfg c₀ rest lvl ctr hp]
        exact ih _ _ c hcr hpath

theorem createStructure_pres (cfg : List (String × String)) :
    ∀ (cols : List Schema) (lvl : CatForest) (ctr : Nat) (qs : List String)
      (node : CategoryData) (d : Schema),
      findPath qs (createStructure cfg cols lvl ctr).1 = some node →
      d ∈ node.collections →
      (∃ node₀, findPath qs lvl = some node₀ ∧ d ∈ node₀.collections) ∨
        (d ∈ cols ∧ d.path ≠ "" ∧ splitSlash d.path = qs) := by
  intro cols
  induction cols with
  | nil =>
    intro lvl ctr qs node d hfind hd
    exact Or.inl ⟨node, hfind, hd⟩
  | cons c₀ rest ih =>
    intro lvl ctr qs node d hfind hd
    by_cases hp : c₀.path = ""
    · rw [createStructure_cons_skip cfg c₀ rest lvl ctr hp] at hfind
      rcases ih lvl ctr qs node d hfind hd with hl | ⟨hmem, hne, hsp⟩
      · exact Or.inl hl
      · exact Or.inr ⟨List.mem_cons_of_mem c₀ hmem, hne, hsp⟩
    · rw [createStructure_cons_ins cfg c₀ rest lvl ctr hp] at hfind
      rcases ih _ _ qs node d hfind hd with ⟨nmid, hmid, hdm⟩ | ⟨hmem, hne, hsp⟩
      · rcases insertWalk_pres cfg c₀ (splitSlash c₀.path) qs "" 0 lvl ctr nmid d
            hmid hdm with hl | ⟨hdc, hqs⟩
        · exact Or.inl hl
        · subst hdc
          exact Or.inr ⟨List.mem_cons_self _ _, hp, hqs.symm⟩
      · exact Or.inr ⟨List.mem_cons_of_mem c₀ hmem, hne, hsp⟩

/-- C5.  For every definition set with non-empty slash-separated paths,
the built category structure lets every definition be reached by walking
its own path segments from the root; and conversely any definition
attached to any reachable node belongs to the input set and has exactly
that node's path as its own — so a definition is attached only at its
path-terminal node, and a node whose path is no definition's path carries
no definitions at all. -/
theorem C5_tree_construction (cfg : List (String × String)) (cols : List Schema)
    (ctr : Nat) :
    (∀ c ∈ cols, c.path ≠ "" →
      ∃ node, findPath (splitSlash c.path)
          (createStructure cfg cols CatForest.nil ctr).1 = some node ∧
        c ∈ node.collections) ∧
    (∀ qs node, findPath qs (createStructure cfg cols CatForest.nil ctr).1 =
        some node →
      ∀ d ∈ node.collections, d ∈ cols ∧ d.path ≠ "" ∧ splitSlash d.path = qs) := by
  constructor
  · intro c hc hpath
    exact createStructure_mem cfg cols CatForest.nil ctr c hc hpath
  · intro qs node hfind d hd
    rcases createStructure_pres cfg cols CatForest.nil ctr qs node d hfind hd with
      ⟨node₀, hn₀, _⟩ | h
    · rw [findPath_nil] at hn₀
      exact absurd hn₀ (by simp)
    · exact h

/-- Concrete witness scenario: definitions at paths `posts` and
`media/news`. -/
theorem C5_tree_construction_witness :
    (∀ c ∈ [sampleSchema, sampleSchema₂], c.path ≠ "" →
      ∃ node, findPath (splitSlash c.path)
          (createStructure [] [sampleSchema, sampleSchema₂] CatForest.nil 0).1 =
            some node ∧ c ∈ node.collections) ∧
    (∀ qs node, findPath qs
        (createStructure [] [sampleSchema, sampleSchema₂] CatForest.nil 0).1 =
          some node →
      ∀ d ∈ node.collections, d ∈ [sampleSchema, sampleSchema₂] ∧ d.path ≠ "" ∧
        splitSlash d.path = qs) :=
  C5_tree_construction [] [sampleSchema, sampleSchema₂] 0

/-! ## C6 — idempotence of `updateCollections(false)`

The claim as stated fails on the code: without the distributed tier, each
pass re-runs `createRandomID()` — a definition source without an explicit
id receives a fresh id every pass (line 383), and category nodes always
do (line 675) — so two back-to-back `updateCollections(false)` calls do
not produce byte-identical `getCollectionData()` output.  What does hold:
with the distributed tier enabled, the second call is served entirely from
the tier-2 snapshot the first call stored (or found) and the output is
byte-identical. -/

def c6Src : SchemaSrc :=
  { id := none, icon := none, label := none, slug := none, description := none
    strict := none, revision := none, livePreview := none, fields := none
    permissions := none }

def c6Modules : List (String × Module) := [("/config/collections/a.ts", some c6Src)]

def c6Pass1 : MgrState × RedisStore :=
  updateCollections false false [] c6Modules false emptyState []

def c6Pass2 : MgrState × RedisStore :=
  updateCollections false false [] c6Modules false c6Pass1.1 c6Pass1.2

/-- C6 counterexample.  In memory-only mode, with one definition source
lacking an explicit id, the two passes publish definitions with different
(freshly generated) identifiers, so `getCollectionData()` is not
byte-identical after each call. -/
theorem C6_counterexample :
    (getCollectionData c6Pass2.1).1.map Schema.id ≠
      (getCollectionData c6Pass1.1).1.map Schema.id := by
  decide

theorem projSchemaList_inv {C : Type} (v? : Option (RedisVal C)) (l : List Schema)
    (h : projSchemaList v? = some l) : v? = some (RedisVal.schemaList l) := by
  cases v? with
  | none => simp [projSchemaList] at h
  | some v =>
    cases v with
    | schema s => simp [projSchemaList] at h
    | schemaList l₂ =>
      simp only [projSchemaList, Option.some_inj] at h
      rw [h]
    | categoryList cl => simp [projSchemaList] at h

theorem projCategoryList_inv {C : Type} (v? : Option (RedisVal C)) (l : List C)
    (h : projCategoryList v? = some l) : v? = some (RedisVal.categoryList l) := by
  cases v? with
  | none => simp [projCategoryList] at h
  | some v =>
    cases v with
    | schema s => simp [projCategoryList] at h
    | schemaList l₂ => simp [projCategoryList] at h
    | categoryList cl =>
      simp only [projCategoryList, Option.some_inj] at h
      rw [h]

theorem devLoop_preserves_loaded (browser redisOn : Bool) :
    ∀ (mods : List (String × Module)) (s : MgrState) (redis : RedisStore),
      (devLoop browser redisOn mods s redis).2.1.loadedCategories =
        s.loadedCategories ∧
      (devLoop browser redisOn mods s redis).2.1.loadedCollections =
        s.loadedCollections := by
  intro mods
  induction mods with
  | nil => intro s redis; exact ⟨rfl, rfl⟩
  | cons p rest ih =>
    intro s redis
    obtain ⟨fp, m⟩ := p
    rcases hone : devProcessOne fp m s.idCtr with ⟨res, ctr⟩
    cases res with
    | none =>
      have hloop : devLoop browser redisOn ((fp, m) :: rest) s redis =
          devLoop browser redisOn rest
            { s with idCtr := ctr, errorLog := s.errorLog ++ [fp] } redis := by
        simp only [devLoop, hone]
      rw [hloop]
      exact ih _ redis
    | some schema =>
      have hloop : (devLoop browser redisOn ((fp, m) :: rest) s redis).2 =
          (devLoop browser redisOn rest
            { s with
                collectionCache := (setCacheValue browser redisOn redis RedisVal.schema
                  s.clock fp schema s.collectionCache).1
                idCtr := ctr, clock := s.clock + 1 }
            (setCacheValue browser redisOn redis RedisVal.schema s.clock fp schema
              s.collectionCache).2).2 := by
        simp only [devLoop, hone]
      rw [hloop]
      exact ih _ _

/-- After any `loadCollections` pass with the distributed tier enabled,
the published list equals the returned list and the tier-2
`cms:all_collections` entry holds exactly that list. -/
theorem loadCollections_stores (modules : List (String × Module)) (s : MgrState)
    (redis : RedisStore) :
    (loadCollections false true modules s redis).2.1.loadedCollections =
      (loadCollections false true modules s redis).1 ∧
    (loadCollections false true modules s redis).2.1.loadedCategories =
      s.loadedCategories ∧
    lookupA (loadCollections false true modules s redis).2.2 "cms:all_collections" =
      some (RedisVal.schemaList (loadCollections false true modules s redis).1) := by
  rcases hproj : projSchemaList (lookupA redis "cms:all_collections") with _ | C
  · have hl : loadCollections false true modules s redis =
        (let looped := devLoop false true
          (sortByAccess s.collectionAccessCount (filterModules modules)) s redis
        (looped.1, { looped.2.1 with loadedCollections := looped.1 },
          setA looped.2.2 "cms:all_collections" (RedisVal.schemaList looped.1))) := by
      unfold loadCollections
      rw [hproj]
      rfl
    rw [hl]
    refine ⟨rfl, ?_, ?_⟩
    · exact (devLoop_preserves_loaded false true _ s redis).1
    · exact lookupA_setA_self _ _ _
  · have hv := projSchemaList_inv _ _ hproj
    have hl : loadCollections false true modules s redis =
        (C, { s with loadedCollections := C }, redis) := by
      unfold loadCollections
      rw [hproj]
      rfl
    rw [hl]
    exact ⟨rfl, rfl, hv⟩

/-- After any `createCategories` pass with the distributed tier enabled,
the published array equals the returned array, the tier-2 `cms:categories`
entry holds exactly that array, the `cms:all_collections` entry is
untouched, and the published definition list is untouched. -/
theorem createCategories_stores (cfg : List (String × String)) (s : MgrState)
    (redis : RedisStore) :
    (createCategories false true cfg s redis).2.1.loadedCategories =
      (createCategories false true cfg s redis).1 ∧
    (createCategories false true cfg s redis).2.1.loadedCollections =
      s.loadedCollections ∧
    lookupA (createCategories false true cfg s redis).2.2 "cms:categories" =
      some (RedisVal.categoryList (createCategories false true cfg s redis).1) ∧
    lookupA (createCategories false true cfg s redis).2.2 "cms:all_collections" =
      lookupA redis "cms:all_collections" := by
  rcases hproj : projCategoryList (lookupA redis "cms:categories") with _ | A
  · have hl : createCategories false true cfg s redis =
        (let built := createStructure cfg (s.collectionCache.map (fun p => p.2.value))
          CatForest.nil s.idCtr
        (rootCategories built.1,
         { s with loadedCategories := rootCategories built.1
                  categoryCache := forestToCache built.1 s.clock
                  idCtr := built.2
                  clock := s.clock + 1 },
         setA redis "cms:categories" (RedisVal.categoryList (rootCategories built.1)))) := by
      unfold createCategories
      rw [hproj]
      rfl
    rw [hl]
    refine ⟨rfl, rfl, lookupA_setA_self _ _ _, ?_⟩
    exact lookupA_setA_other _ _ _ _ (by decide)
  · have hv := projCategoryList_inv _ _ hproj
    have hl : createCategories false true cfg s redis =
        (A, { s with loadedCategories := A }, redis) := by
      unfold createCategories
      rw [hproj]
      rfl
    rw [hl]
    exact ⟨rfl, rfl, hv, rfl⟩

theorem loadCollections_hit (modules : List (String × Module)) (s : MgrState)
    (redis : RedisStore) (C : List Schema)
    (h : lookupA redis "cms:all_collections" = some (RedisVal.schemaList C)) :
    loadCollections false true modules s redis =
      (C, { s with loadedCollections := C }, redis) := by
  unfold loadCollections
  rw [h]
  rfl

theorem createCategories_hit (cfg : List (String × String)) (s : MgrState)
    (redis : RedisStore) (A : List Category)
    (h : lookupA redis "cms:categories" = some (RedisVal.categoryList A)) :
    createCategories false true cfg s redis =
      (A, { s with loadedCategories := A }, redis) := by
  unfold createCategories
  rw [h]
  rfl

/-- C6 amended.  In memory-only mode two back-to-back
`updateCollections(false)` calls agree only up to freshly generated random
identifiers (see the counterexample); byte-identical output holds with the
distributed tier enabled: for every module table, configuration and
starting state, the second call is served from the tier-2 snapshot and
`getCollectionData()` is byte-identical after the two calls. -/
theorem C6_amended_redis_idempotent (cfg : List (String × String))
    (modules : List (String × Module)) (s : MgrState) (redis : RedisStore) :
    getCollectionData (updateCollections false true cfg modules false
        (updateCollections false true cfg modules false s redis).1
        (updateCollections false true cfg modules false s redis).2).1 =
      getCollectionData (updateCollections false true cfg modules false s redis).1 := by
  have hupd : ∀ (s₀ : MgrState) (r₀ : RedisStore),
      updateCollections false true cfg modules false s₀ r₀ =
        ((createCategories false true cfg
            (loadCollections false true modules s₀ r₀).2.1
            (loadCollections false true modules s₀ r₀).2.2).2.1,
         (createCategories false true cfg
            (loadCollections false true modules s₀ r₀).2.1
            (loadCollections false true modules s₀ r₀).2.2).2.2) := by
    intro s₀ r₀
    rfl
  obtain ⟨hl1, hl2, hl3⟩ := loadCollections_stores modules s redis
  obtain ⟨hc1, hc2, hc3, hc4⟩ := createCategories_stores cfg
    (loadCollections false true modules s redis).2.1
    (loadCollections false true modules s redis).2.2
  rw [hupd s redis]
  have hload2 := loadCollections_hit modules
    (createCategories false true cfg
      (loadCollections false true modules s redis).2.1
      (loadCollections false true modules s redis).2.2).2.1
    (createCategories false true cfg
      (loadCollections false true modules s redis).2.1
      (loadCollections false true modules s redis).2.2).2.2
    (loadCollections false true modules s redis).1
    (by rw [hc4, hl3])
  rw [hupd]
  rw [hload2]
  have hcats2 := createCategories_hit cfg
    { (createCategories false true cfg
        (loadCollections false true modules s redis).2.1
        (loadCollections false true modules s redis).2.2).2.1 with
        loadedCollections := (loadCollections false true modules s redis).1 }
    (createCategories false true cfg
      (loadCollections false true modules s redis).2.1
      (loadCollections false true modules s redis).2.2).2.2
    (createCategories false true cfg
      (loadCollections false true modules s redis).2.1
      (loadCollections false true modules s redis).2.2).1
    hc3
  rw [hcats2]
  unfold getCollectionData
  simp only []
  rw [hc1, hc2, hl1]

end SimpleCMS
